import Mathlib

/-!
Verification development for the StencilSnap core pipeline
(`src/backend/main.py`: function `high_quality_stencil`, lines 70-151, and
its helper `add_halftone_shading`, lines 42-67).

The pipeline glue — parameter clamping, size normalisation, threshold and
block-size arithmetic, mask combination, 3x3 morphology, the skeletonisation
control flow, the halftone block computation, compositing, and every failure
point — is embedded concretely.  Python `float` arithmetic is modelled
bit-exactly: a float is a pair (significand, exponent) of integers, and every
float operation of the source is performed with IEEE-754 binary64
round-to-nearest-even semantics (`normF`, `fdiv`, `fmul`, `fsub`).  `F64.val`
maps a float to the exact rational it denotes; specification statements are
phrased against `val`.

Pixel-level third-party filters called by the source (OpenCV
`bilateralFilter`, CLAHE, `GaussianBlur`, `Canny`, `adaptiveThreshold`, the
`resize` interpolators, and the thinning pass of `skimage.morphology.
skeletonize`) are not code of this repository; the embedding is parametrised
over them by the `Ops` structure, whose field types record the shape contract
those library calls guarantee (an output image has exactly the requested
dimensions).  Theorems about the glue are stated for an arbitrary `Ops`.
`modelOps` is one concrete instantiation used to evaluate the glue on small
inputs for closed witnesses and counterexamples; every conclusion drawn at
`modelOps` depends only on the glue (dimension arithmetic, clamping, failure
propagation, compositing), never on the pixel values these fields produce.
-/

namespace StencilSnap

/-! ### Exact binary64 arithmetic on integer pairs -/

/-- Number of binary digits of `n`, computed with explicit fuel so that the
kernel can evaluate it; `bitLen` instantiates the fuel. -/
def bitLenAux : ℕ → ℕ → ℕ
  | 0, _ => 0
  | f + 1, n => if n = 0 then 0 else bitLenAux f (n / 2) + 1

/-- Number of binary digits of `n` (0 for 0): the unique `L` with
`2 ^ (L - 1) ≤ n < 2 ^ L` when `n ≠ 0`. -/
def bitLen (n : ℕ) : ℕ := bitLenAux n n

/-- Round `a / b` to the nearest natural number, ties to even. -/
def rneDiv (a b : ℕ) : ℕ :=
  let q := a / b
  let r := a % b
  if b < 2 * r then q + 1
  else if 2 * r < b then q
  else if q % 2 = 0 then q else q + 1

/-- A binary64 value: the rational `m * 2 ^ e`.  All floats produced by the
source are in the normal range, so no infinities, NaNs or subnormals arise
and this unbounded-exponent model coincides with IEEE-754 binary64. -/
structure F64 where
  m : ℤ
  e : ℤ
deriving DecidableEq

/-- The exact rational denoted by a binary64 value. -/
def F64.val (x : F64) : ℚ := (x.m : ℚ) * (2 : ℚ) ^ x.e

/-- Round a significand to at most 53 bits (round to nearest, ties to even);
returns the rounded significand and the exponent shift. -/
def roundM (a : ℕ) : ℕ × ℕ :=
  let L := bitLen a
  if L ≤ 53 then (a, 0) else (rneDiv a (2 ^ (L - 53)), L - 53)

/-- The binary64 value nearest to `m * 2 ^ e` (ties to even). -/
def normF (m : ℤ) (e : ℤ) : F64 :=
  if m = 0 then ⟨0, 0⟩
  else
    let p := roundM m.natAbs
    ⟨if 0 ≤ m then (p.1 : ℤ) else -(p.1 : ℤ), e + p.2⟩

/-- Decide `2 ^ l ≤ a / b` by cross multiplication. -/
def le2 (a b : ℕ) (l : ℤ) : Bool :=
  if 0 ≤ l then b * 2 ^ l.toNat ≤ a else b ≤ a * 2 ^ (-l).toNat

/-- The floor of the base-2 logarithm of `a / b` (for `a, b ≥ 1`). -/
def flog2 (a b : ℕ) : ℤ :=
  let l0 : ℤ := (bitLen a : ℤ) - (bitLen b : ℤ)
  if le2 a b l0 then l0 else l0 - 1

/-- Correctly rounded binary64 quotient of two positive integers. -/
def fdivPos (a b : ℕ) : F64 :=
  let t : ℤ := 52 - flog2 a b
  if 0 ≤ t then ⟨rneDiv (a * 2 ^ t.toNat) b, -t⟩
  else ⟨rneDiv a (b * 2 ^ (-t).toNat), -t⟩

/-- Correctly rounded binary64 quotient of two integers (`b ≠ 0` in every
use); this is the exact result of Python's true division of two ints, and of
IEEE division when both operands are exactly representable. -/
def fdiv (a b : ℤ) : F64 :=
  if a = 0 then ⟨0, 0⟩
  else if (0 ≤ a) = (0 ≤ b) then fdivPos a.natAbs b.natAbs
  else
    let p := fdivPos a.natAbs b.natAbs
    ⟨-p.m, p.e⟩

/-- The binary64 value of a Python int converted to float (rounds for
magnitudes of 2 ^ 53 and above, exact below). -/
def fofInt (z : ℤ) : F64 := normF z 0

/-- IEEE binary64 product. -/
def fmul (x y : F64) : F64 := normF (x.m * y.m) (x.e + y.e)

/-- IEEE binary64 difference. -/
def fsub (x y : F64) : F64 :=
  let e0 := min x.e y.e
  normF (x.m * 2 ^ (x.e - e0).toNat - y.m * 2 ^ (y.e - e0).toNat) e0

/-- IEEE comparison `x ≤ y` (exact on the denoted values). -/
def fle (x y : F64) : Bool :=
  let e0 := min x.e y.e
  x.m * 2 ^ (x.e - e0).toNat ≤ y.m * 2 ^ (y.e - e0).toNat

/-- IEEE equality test (exact on the denoted values). -/
def feq (x y : F64) : Bool :=
  let e0 := min x.e y.e
  x.m * 2 ^ (x.e - e0).toNat = y.m * 2 ^ (y.e - e0).toNat

/-- IEEE comparison `x < y`. -/
def flt (x y : F64) : Bool := !(fle y x)

/-- Python `min` on two floats. -/
def fmin (x y : F64) : F64 := if fle x y then x else y

/-- Python `max` on two floats. -/
def fmax (x y : F64) : F64 := if fle x y then y else x

/-- `clamp` from `main.py` line 24 on floats: `max(a, min(b, v))`. -/
def clampF (v a b : F64) : F64 := fmax a (fmin b v)

/-- Python `int(x)` applied to a non-negative float: truncation. -/
def ffloorNat (x : F64) : ℕ :=
  (if 0 ≤ x.e then x.m * 2 ^ x.e.toNat else x.m / 2 ^ (-x.e).toNat).toNat

/-- `clamp` from `main.py` line 24 on integers: `max(a, min(b, v))`. -/
def clamp (v a b : ℤ) : ℤ := max a (min b v)

/-! ### Images -/

/-- A single-channel 8-bit image (values 0..255 in every actual use). -/
abbrev Gray (h w : ℕ) := Fin h → Fin w → ℕ

/-- A three-channel 8-bit image; the triple is in the B, G, R channel order
used by every cv2 buffer in the source. -/
abbrev Color (h w : ℕ) := Fin h → Fin w → ℕ × ℕ × ℕ

/-- A float-valued image (the `float32` arrays inside the halftone helper). -/
abbrev FImg (h w : ℕ) := Fin h → Fin w → F64

/-- A colour image together with its dimensions. -/
abbrev ColorImage := Σ h w : ℕ, Color h w

/-- Non-dependent encoding of a colour image, used to decide equality of
images without dependent casts. -/
def encodePix (img : ColorImage) : List (List (ℕ × ℕ × ℕ)) :=
  List.ofFn fun i => List.ofFn fun j => img.2.2 i j

theorem encodePix_iff (a b : ColorImage) :
    a.1 = b.1 ∧ a.2.1 = b.2.1 ∧ encodePix a = encodePix b ↔ a = b := by
  constructor
  · obtain ⟨ha, wa, fa⟩ := a
    obtain ⟨hb, wb, fb⟩ := b
    rintro ⟨h1, h2, h3⟩
    dsimp at h1 h2
    subst h1; subst h2
    unfold encodePix at h3
    simp only at h3
    have hfa : fa = fb := by
      funext i j
      exact congrFun (List.ofFn_injective (congrFun (List.ofFn_injective h3) i)) j
    rw [hfa]
  · rintro rfl
    exact ⟨rfl, rfl, rfl⟩

instance instDecEqColorImage : DecidableEq ColorImage := fun a b =>
  decidable_of_iff _ (encodePix_iff a b)

/-- Equality of optional colour images follows from equality of the
dimension/pixel encodings (used to discharge concrete pipeline runs). -/
theorem optionCI_eq_of_parts (o o' : Option ColorImage)
    (h : o.map (fun s => (s.1, s.2.1, encodePix s)) =
         o'.map (fun s => (s.1, s.2.1, encodePix s))) : o = o' := by
  cases o with
  | none => cases o' with
    | none => rfl
    | some s => simp at h
  | some s =>
    cases o' with
    | none => simp at h
    | some s' =>
      simp only [Option.map_some', Option.some.injEq, Prod.mk.injEq] at h
      exact congrArg some ((encodePix_iff s s').mp ⟨h.1, h.2.1, h.2.2⟩)

/-- Equality of optional colour images from the three non-dependent
projections separately (dimensions and pixel encoding). -/
theorem optionCI_eq_of_three (o o' : Option ColorImage)
    (h1 : o.map (fun s => s.1) = o'.map (fun s => s.1))
    (h2 : o.map (fun s => s.2.1) = o'.map (fun s => s.2.1))
    (h3 : o.map (fun s => encodePix s) = o'.map (fun s => encodePix s)) : o = o' := by
  cases o with
  | none => cases o' with
    | none => rfl
    | some s => simp at h1
  | some s =>
    cases o' with
    | none => simp at h1
    | some s2 =>
      simp only [Option.map_some', Option.some.injEq] at h1 h2 h3
      exact congrArg some ((encodePix_iff s s2).mp ⟨h1, h2, h3⟩)

/-! ### The library operations the source calls (parameters of the model) -/

/-- The third-party image operations used by `high_quality_stencil` and
`add_halftone_shading`.  Each field stands for one library call of the
source, with the call's tuning arguments passed explicitly; the field's type
records the dimension contract of the call (output shape as requested).
Their pixel-level numerics are outside this repository and are left
abstract. -/
structure Ops where
  /-- `cv2.resize(bgr, (w', h'), interpolation=cv2.INTER_AREA)`, line 84. -/
  resizeArea3 : ∀ {h w : ℕ} (h' w' : ℕ), Color h w → Color h' w'
  /-- `cv2.cvtColor(bgr, cv2.COLOR_BGR2GRAY)`, line 87. -/
  cvtGray : ∀ {h w : ℕ}, Color h w → Gray h w
  /-- `cv2.bilateralFilter(gray, d, sigmaColor, sigmaSpace)`, line 91. -/
  bilateralFilter : ∀ {h w : ℕ}, (d sigmaColor sigmaSpace : ℕ) → Gray h w → Gray h w
  /-- `cv2.createCLAHE(clipLimit, tileGridSize).apply`, lines 92-93. -/
  clahe : ∀ {h w : ℕ}, (clipLimit : F64) → (tiles : ℕ × ℕ) → Gray h w → Gray h w
  /-- `cv2.GaussianBlur(con, (0, 0), sigma)`, line 96. -/
  gaussianBlurSigma : ∀ {h w : ℕ}, (sigma : F64) → Gray h w → Gray h w
  /-- `cv2.addWeighted(src1, alpha, src2, beta, gamma)`, line 97. -/
  addWeighted : ∀ {h w : ℕ}, Gray h w → F64 → Gray h w → F64 → F64 → Gray h w
  /-- `cv2.Canny(sharp, t1, t2)`, line 103. -/
  canny : ∀ {h w : ℕ}, Gray h w → ℤ → ℤ → Gray h w
  /-- `cv2.adaptiveThreshold(sharp, maxValue, cv2.ADAPTIVE_THRESH_GAUSSIAN_C,
  cv2.THRESH_BINARY, blockSize, C)`, lines 110-116. -/
  adaptiveThresholdGaussian :
    ∀ {h w : ℕ}, Gray h w → (maxValue blockSize : ℕ) → (c0 : ℤ) → Gray h w
  /-- One full thinning pass of `skimage.morphology.skeletonize`, line 130;
  the skeletonisation loop itself (repeat until no pixel changes) is part of
  the embedding, see `skeletonStage`. -/
  thinStep : ∀ {h w : ℕ}, Gray h w → Gray h w
  /-- Lines 51-53 of `add_halftone_shading`: `inv = 1 - (gray / 255) ** 0.75`
  as a float image. -/
  powGammaInv : ∀ {h w : ℕ}, Gray h w → FImg h w
  /-- `cv2.resize(inv, (w', h'), interpolation=cv2.INTER_AREA)` on the float
  image, line 58. -/
  resizeArea1 : ∀ {h w : ℕ} (h' w' : ℕ), FImg h w → FImg h' w'
  /-- `cv2.resize(dots, (w, h), interpolation=cv2.INTER_NEAREST)`, line 62. -/
  resizeNearest : ∀ {h w : ℕ} (h' w' : ℕ), Gray h w → Gray h' w'
  /-- `cv2.GaussianBlur(dots, (3, 3), 0)`, line 65. -/
  gaussianBlur3 : ∀ {h w : ℕ}, Gray h w → Gray h w

/-! ### The pipeline glue, translated line by line from the source -/

/-- Lines 80-82: `scale = 1400 / max_side if max_side > 1400 else 1.0`. -/
def scaleOf (h w : ℕ) : F64 :=
  if 1400 < max h w then fdiv (1400 : ℤ) ((max h w : ℕ) : ℤ) else ⟨1, 0⟩

/-- Line 84: the resize target height `int(h * scale)` (the dimension is
left unchanged when `scale != 1.0` fails, mirroring lines 83-84). -/
def normH (h w : ℕ) : ℕ :=
  if feq (scaleOf h w) ⟨1, 0⟩ then h else ffloorNat (fmul (fofInt h) (scaleOf h w))

/-- Line 84: the resize target width `int(w * scale)`. -/
def normW (h w : ℕ) : ℕ :=
  if feq (scaleOf h w) ⟨1, 0⟩ then w else ffloorNat (fmul (fofInt w) (scaleOf h w))

/-- Lines 79-87 up to the grayscale conversion: the size normaliser.  The
`none` results are the two assertion failures cv2 raises there: `cv2.resize`
rejects an empty target (a computed dimension of 0), and `cv2.cvtColor`
(first filter applied when no resize happens) rejects an empty source. -/
def normalizeStage (ops : Ops) : ColorImage → Option ColorImage :=
  fun img =>
    let h := img.1
    let w := img.2.1
    if feq (scaleOf h w) ⟨1, 0⟩ then
      if h = 0 ∨ w = 0 then none else some img
    else
      if normH h w = 0 ∨ normW h w = 0 then none
      else some ⟨normH h w, normW h w, ops.resizeArea3 (normH h w) (normW h w) img.2.2⟩

/-- Lines 89-97: denoise, CLAHE, unsharp.  The float constants 2.2, 1.35 and
-0.35 of the source are the binary64 values of those literals. -/
def enhance (ops : Ops) {h w : ℕ} (g : Gray h w) : Gray h w :=
  let den := ops.bilateralFilter 7 50 50 g
  let con := ops.clahe (fdiv 11 5) (8, 8) den
  let blur := ops.gaussianBlurSigma ⟨1, 0⟩ con
  ops.addWeighted con (fdiv 27 20) blur (fdiv (-7) 20) ⟨0, 0⟩

/-- Line 101: `t1 = int(40 + (8 - detail) * 6)`. -/
def cannyT1 (d : ℤ) : ℤ := 40 + (8 - d) * 6

/-- Line 102: `t2 = int(120 + (8 - detail) * 8)`. -/
def cannyT2 (d : ℤ) : ℤ := 120 + (8 - d) * 8

/-- Lines 107-109: `block = int(clamp(31 - detail * 2, 15, 31))`, then
`block += 1` if even. -/
def blockOf (d : ℤ) : ℤ :=
  let b := clamp (31 - d * 2) 15 31
  if b % 2 = 0 then b + 1 else b

/-- Lines 99-121: Canny edges OR the inverted adaptive threshold.  Inversion
`255 - th` is the uint8 complement of line 118; `bitwise_or` on the two
0/255 masks of line 121 is the bitwise or. -/
def lineCandidate (ops : Ops) {h w : ℕ} (d : ℤ) (sharp : Gray h w) : Gray h w :=
  let edges := ops.canny sharp (cannyT1 d) (cannyT2 d)
  let th := ops.adaptiveThresholdGaussian sharp 255 (blockOf d).toNat 2
  fun i j => Nat.lor (edges i j) (255 - th i j)

/-- Erosion by the all-ones 3x3 kernel of line 124 (minimum over the
in-bounds neighbourhood, as cv2 erode with the default border). -/
def erode3 {h w : ℕ} (g : Gray h w) : Gray h w := fun i j =>
  (List.range 3).foldl (fun acc a =>
    (List.range 3).foldl (fun acc2 b =>
      let ia : ℤ := (i : ℤ) + a - 1
      let jb : ℤ := (j : ℤ) + b - 1
      if ha : 0 ≤ ia ∧ ia < h then
        if hb : 0 ≤ jb ∧ jb < w then
          min acc2 (g ⟨ia.toNat, by omega⟩ ⟨jb.toNat, by omega⟩)
        else acc2
      else acc2) acc) (g i j)

/-- Dilation by the all-ones 3x3 kernel of line 124. -/
def dilate3 {h w : ℕ} (g : Gray h w) : Gray h w := fun i j =>
  (List.range 3).foldl (fun acc a =>
    (List.range 3).foldl (fun acc2 b =>
      let ia : ℤ := (i : ℤ) + a - 1
      let jb : ℤ := (j : ℤ) + b - 1
      if ha : 0 ≤ ia ∧ ia < h then
        if hb : 0 ≤ jb ∧ jb < w then
          max acc2 (g ⟨ia.toNat, by omega⟩ ⟨jb.toNat, by omega⟩)
        else acc2
      else acc2) acc) (g i j)

/-- Lines 124-126: one morphological opening followed by one closing. -/
def cleanup {h w : ℕ} (g : Gray h w) : Gray h w := erode3 (dilate3 (dilate3 (erode3 g)))

/-- Line 129: `(combo > 0).astype(np.uint8)`. -/
def binarize {h w : ℕ} (g : Gray h w) : Gray h w := fun i j => if 0 < g i j then 1 else 0

/-- Total pixel sum, the termination measure of the thinning loop. -/
def pixSum {h w : ℕ} (g : Gray h w) : ℕ := ∑ i, ∑ j, g i j

/-- Iterate a thinning pass until it no longer changes the mask (or fuel
runs out; the fuel passed by `skeletonStage` always suffices for a
pixel-removing pass). -/
def iterFix {h w : ℕ} (step : Gray h w → Gray h w) : ℕ → Gray h w → Gray h w
  | 0, x => x
  | n + 1, x => if step x = x then x else iterFix step n (step x)

/-- Line 129-130: binarise, thin to a fixed point, scale back to 0/255.
Modelled from the spec: section 4.5 describes the Skeletonizer as iterative
thinning repeated to a fixed point; `skimage.morphology.skeletonize`, which
implements the loop, is outside this repository, so its single pass is the
`Ops.thinStep` parameter and the fixed-point loop is embedded here. -/
def skeletonStage (ops : Ops) {h w : ℕ} (g : Gray h w) : Gray h w :=
  let sk := binarize g
  fun i j => iterFix (fun x => ops.thinStep x) (pixSum sk + 1) sk i j * 255

/-- Integer square root of a small number (all uses have argument at most
16), by exhaustive search. -/
def sqrtSmall (n : ℕ) : ℕ :=
  (List.range 17).foldl (fun acc k => if k * k ≤ n then k else acc) 0

/-- The exact value of OpenCV's
`cvRound(c * std::sqrt((r * r - dy * dy) * inv_r2))` inside
`getStructuringElement(MORPH_ELLIPSE)` with `n = r * r - dy * dy`
(round to nearest, ties to even; for the arguments arising with kernel
sizes 1..8 no tie occurs and the double-precision evaluation is never within
0.03 of a rounding boundary, so this integer computation is exact). -/
def cvRoundEll (c n r : ℕ) : ℕ :=
  let t := c * c * n
  let f0 := sqrtSmall (t / (r * r))
  if (r * (2 * f0 + 1)) ^ 2 < 4 * t then f0 + 1
  else if 4 * t < (r * (2 * f0 + 1)) ^ 2 then f0
  else if f0 % 2 = 0 then f0 else f0 + 1

/-- Membership of grid point `(a, b)` in OpenCV's elliptical `k x k`
structuring element (line 134), following the `getStructuringElement`
algorithm: row `a` holds columns `max(c - dx, 0) ≤ b < min(c + dx + 1, k)`
where `dx = cvRound(c * sqrt(r^2 - dy^2) / r)`, `r = c = k / 2`,
`dy = a - r`. -/
def ellB (k a b : ℕ) : Bool :=
  let r := k / 2
  let c := k / 2
  if a < k ∧ b < k then
    let dy2 : ℕ := ((a : ℤ) - r).natAbs ^ 2
    if dy2 ≤ r * r then
      let dx := cvRoundEll c (r * r - dy2) r
      decide (c - dx ≤ b ∧ b < min (c + dx + 1) k)
    else false
  else false

/-- Pixel access with out-of-bounds reads ignored (0), the neutral element
of the dilation maximum. -/
def getO {h w : ℕ} (g : Gray h w) (a b : ℤ) : ℕ :=
  if ha : 0 ≤ a ∧ a < h then
    if hb : 0 ≤ b ∧ b < w then g ⟨a.toNat, by omega⟩ ⟨b.toNat, by omega⟩ else 0
  else 0

/-- Line 135: `cv2.dilate(sk, getStructuringElement(MORPH_ELLIPSE, (k, k)))`
with anchor at the kernel centre `(k / 2, k / 2)`; out-of-bounds pixels do
not contribute to the maximum. -/
def dilateEll (k : ℕ) {h w : ℕ} (g : Gray h w) : Gray h w := fun i j =>
  Finset.univ.sup fun p : Fin k × Fin k =>
    if ellB k p.1 p.2 then
      getO g ((i : ℤ) + p.1 - (k / 2 : ℕ)) ((j : ℤ) + p.2 - (k / 2 : ℕ))
    else 0

/-- Lines 99-135, from the enhanced image to the rendered line mask:
extract, clean, skeletonise, then thicken by the elliptical kernel of size
`int(clamp(line_weight, 1, 8))` (line 133). -/
def lineMaskOf (ops : Ops) {h w : ℕ} (sharp : Gray h w) (d lw : ℤ) : Gray h w :=
  dilateEll (clamp lw 1 8).toNat (skeletonStage ops (cleanup (lineCandidate ops d sharp)))

/-- Line 138: `shade_strength = clamp((detail - 2) / 6.0, 0.0, 1.0)`. -/
def shadeStrength (d : ℤ) : F64 := clampF (fdiv (d - 2) 6) ⟨0, 0⟩ ⟨1, 0⟩

/-- Line 57: `block = int(clamp(10 - strength * 6, 4, 10))`. -/
def halftoneBlock (strength : F64) : ℕ :=
  ffloorNat (clampF (fsub ⟨10, 0⟩ (fmul strength (fofInt 6))) ⟨4, 0⟩ ⟨10, 0⟩)

/-- Lines 42-67, `add_halftone_shading`.  The `none` is the assertion
failure cv2.resize raises on an empty target when `w // block` or
`h // block` is 0 (line 58); 0.55 and 80 are the thresholds of lines 60-66;
the gamma compression and the two resizes are `Ops` fields. -/
def add_halftone_shading (ops : Ops) {h w : ℕ} (gray : Gray h w) (strength : F64) :
    Option (Gray h w) :=
  if fle strength ⟨0, 0⟩ then some (fun _ _ => 0)
  else
    let block := halftoneBlock strength
    if w / block = 0 ∨ h / block = 0 then none
    else
      let inv := ops.powGammaInv gray
      let small := ops.resizeArea1 (h / block) (w / block) inv
      let dots1 : Gray (h / block) (w / block) := fun i j =>
        if flt (fdiv 11 20) (small i j) then 255 else 0
      let dots2 := ops.resizeNearest h w dots1
      let dots3 := ops.gaussianBlur3 dots2
      some (fun i j => if 80 < dots3 i j then 255 else 0)

/-- Line 21: the fixed ink colour, as the RGB triple of the source. -/
def PURPLE : ℕ × ℕ × ℕ := (140, 90, 255)

/-- Lines 144-150: white canvas, ink pixels set to
`(PURPLE[2], PURPLE[1], PURPLE[0])` in the BGR buffer. -/
def composite {h w : ℕ} (ink : Gray h w) : Color h w := fun i j =>
  if 0 < ink i j then (PURPLE.2.2, PURPLE.2.1, PURPLE.1) else (255, 255, 255)

/-- Lines 79-151 of `high_quality_stencil`, after the parameter clamping:
normalise, enhance, render lines, shade, compose. -/
def hqsCore (ops : Ops) (img : ColorImage) (lw d : ℤ) : Option ColorImage :=
  (normalizeStage ops img).bind fun n =>
    let gray := ops.cvtGray n.2.2
    let sharp := enhance ops gray
    let lines := lineMaskOf ops sharp d lw
    (add_halftone_shading ops sharp (shadeStrength d)).map fun shade =>
      ⟨n.1, n.2.1, composite (fun i j => Nat.lor (lines i j) (shade i j))⟩

/-- `high_quality_stencil` (lines 70-151): clamp both parameters into
`[1, 8]` (lines 76-77), then run the pipeline body. -/
def high_quality_stencil (ops : Ops) (img : ColorImage) (lw d : ℤ) : Option ColorImage :=
  hqsCore ops img (clamp lw 1 8) (clamp d 1 8)

/-- Number of ink (non-zero) pixels of a mask. -/
def countInk {h w : ℕ} (g : Gray h w) : ℕ := ∑ i, ∑ j, if 0 < g i j then 1 else 0

/-! ### A concrete instantiation of the library operations

Used only to evaluate the pipeline glue on small concrete inputs (witnesses
and counterexamples whose truth depends on the glue alone).  `cvtGray`
follows cv2's fixed-point BGR luma; the filter fields are simple
shape-respecting functions, as no theorem below depends on their pixel
values. -/

def modelOps : Ops where
  resizeArea3 := fun _ _ _ => fun _ _ => (0, 0, 0)
  cvtGray := fun px i j =>
    (1868 * (px i j).1 + 9617 * (px i j).2.1 + 4899 * (px i j).2.2 + 8192) / 16384
  bilateralFilter := fun _ _ _ g => g
  clahe := fun _ _ g => g
  gaussianBlurSigma := fun _ g => g
  addWeighted := fun a _ _ _ _ => a
  canny := fun _ _ _ => fun _ _ => 0
  adaptiveThresholdGaussian := fun _ mv _ _ => fun _ _ => mv
  thinStep := fun g => g
  powGammaInv := fun _ => fun _ _ => ⟨0, 0⟩
  resizeArea1 := fun _ _ _ => fun _ _ => ⟨0, 0⟩
  resizeNearest := fun _ _ _ => fun _ _ => 0
  gaussianBlur3 := fun g => g

/-- A 3x3 test image. -/
def img3 : ColorImage := ⟨3, 3, fun _ _ => (10, 20, 30)⟩

/-- A 2x2 test image. -/
def img2 : ColorImage := ⟨2, 2, fun _ _ => (200, 200, 200)⟩

/-- The all-white 2x2 image. -/
def white2 : ColorImage := ⟨2, 2, fun _ _ => (255, 255, 255)⟩

/-- A concrete 2x2 grayscale image used to instantiate universally
quantified statements. -/
def graySample : Gray 2 2 := fun _ _ => 100

/-! ### Lemmas about the binary64 layer -/

theorem bitLenAux_zero (f : ℕ) : bitLenAux f 0 = 0 := by
  cases f <;> simp [bitLenAux]

theorem bitLenAux_congr : ∀ n f g : ℕ, n ≤ f → n ≤ g → bitLenAux f n = bitLenAux g n := by
  intro n
  induction n using Nat.strong_induction_on with
  | _ n ih =>
    intro f g hf hg
    rcases Nat.eq_zero_or_pos n with rfl | hn
    · rw [bitLenAux_zero, bitLenAux_zero]
    · obtain ⟨f', rfl⟩ : ∃ f', f = f' + 1 := ⟨f - 1, by omega⟩
      obtain ⟨g', rfl⟩ : ∃ g', g = g' + 1 := ⟨g - 1, by omega⟩
      show bitLenAux (f' + 1) n = bitLenAux (g' + 1) n
      rw [bitLenAux, bitLenAux, if_neg (by omega), if_neg (by omega)]
      rw [ih (n / 2) (by omega) f' g' (by omega) (by omega)]

theorem bitLen_div2 (n : ℕ) (hn : n ≠ 0) : bitLen n = bitLen (n / 2) + 1 := by
  obtain ⟨f, rfl⟩ : ∃ f, n = f + 1 := ⟨n - 1, by omega⟩
  show bitLenAux (f + 1) (f + 1) = bitLen ((f + 1) / 2) + 1
  rw [bitLenAux, if_neg (by omega)]
  rw [bitLenAux_congr ((f + 1) / 2) f ((f + 1) / 2) (by omega) le_rfl]
  rfl

theorem bitLen_pos (n : ℕ) (hn : n ≠ 0) : 1 ≤ bitLen n := by
  rw [bitLen_div2 n hn]; omega

theorem lt_two_pow_bitLen : ∀ n : ℕ, n < 2 ^ bitLen n := by
  intro n
  induction n using Nat.strong_induction_on with
  | _ n ih =>
    rcases Nat.eq_zero_or_pos n with rfl | hn
    · simp [bitLen, bitLenAux]
    · rw [bitLen_div2 n (by omega), pow_succ]
      have h2 := ih (n / 2) (by omega)
      omega

theorem two_pow_bitLen_pred_le : ∀ n : ℕ, n ≠ 0 → 2 ^ (bitLen n - 1) ≤ n := by
  intro n
  induction n using Nat.strong_induction_on with
  | _ n ih =>
    intro hn
    rcases Nat.lt_or_ge n 2 with h2 | h2
    · interval_cases n
      · exact absurd rfl hn
      · simp [bitLen, bitLenAux]
    · have hd : n / 2 ≠ 0 := by omega
      have hb := bitLen_pos (n / 2) hd
      have hrec := ih (n / 2) (by omega) hd
      rw [bitLen_div2 n hn]
      have : bitLen (n / 2) + 1 - 1 = (bitLen (n / 2) - 1) + 1 := by omega
      rw [this, pow_succ]
      omega

/-- The two-sided integer characterisation of round-to-nearest division:
`|rneDiv a b - a / b| ≤ 1 / 2` cleared of denominators. -/
theorem rneDiv_bounds (a b : ℕ) (hb : 0 < b) :
    (2 * a : ℤ) ≤ 2 * b * rneDiv a b + b ∧ (2 * b * rneDiv a b : ℤ) ≤ 2 * a + b := by
  have hdm : (b : ℤ) * ((a / b : ℕ) : ℤ) + ((a % b : ℕ) : ℤ) = a := by
    exact_mod_cast Nat.div_add_mod a b
  have hlt : ((a % b : ℕ) : ℤ) < b := by exact_mod_cast Nat.mod_lt a hb
  unfold rneDiv
  dsimp only
  by_cases h1 : b < 2 * (a % b)
  · have h1' : (b : ℤ) < 2 * ((a % b : ℕ) : ℤ) := by exact_mod_cast h1
    rw [if_pos h1]
    constructor <;> (try simp only [Nat.cast_add, Nat.cast_one]) <;> linarith
  · rw [if_neg h1]
    have h1' : 2 * ((a % b : ℕ) : ℤ) ≤ b := by exact_mod_cast Nat.not_lt.mp h1
    by_cases h2 : 2 * (a % b) < b
    · rw [if_pos h2]
      constructor <;> (try simp only [Nat.cast_add, Nat.cast_one]) <;> linarith
    · rw [if_neg h2]
      have h2' : (b : ℤ) ≤ 2 * ((a % b : ℕ) : ℤ) := by exact_mod_cast Nat.not_lt.mp h2
      by_cases h3 : a / b % 2 = 0
      · rw [if_pos h3]
        constructor <;> (try simp only [Nat.cast_add, Nat.cast_one]) <;> linarith
      · rw [if_neg h3]
        constructor <;> (try simp only [Nat.cast_add, Nat.cast_one]) <;> linarith

theorem rneDiv_q_le (a b : ℕ) (hb : 0 < b) : (rneDiv a b : ℚ) ≤ a / b + 1 / 2 := by
  have h := (rneDiv_bounds a b hb).2
  have hb' : (0 : ℚ) < b := by exact_mod_cast hb
  have h' : (2 * b * rneDiv a b : ℚ) ≤ 2 * a + b := by exact_mod_cast h
  rw [div_add_div _ _ (ne_of_gt hb') (by norm_num), le_div_iff₀ (by positivity)]
  nlinarith

theorem two_zpow_pos (e : ℤ) : (0 : ℚ) < 2 ^ e := zpow_pos (by norm_num) e

theorem two_pow_natsub (k : ℕ) (hk : 1 ≤ k) :
    ((2 : ℚ) ^ (k - 1 : ℕ)) = (2 : ℚ) ^ ((k : ℤ) - 1) := by
  rw [← zpow_natCast]
  congr 1
  omega

theorem rneDiv_q_ge (a b : ℕ) (hb : 0 < b) : (a : ℚ) / b - 1 / 2 ≤ rneDiv a b := by
  have h := (rneDiv_bounds a b hb).1
  have hb' : (0 : ℚ) < b := by exact_mod_cast hb
  have h' : (2 * a : ℚ) ≤ 2 * b * rneDiv a b + b := by exact_mod_cast h
  rw [sub_le_iff_le_add, div_le_iff₀ hb']
  nlinarith

/-- Specification of the significand rounding: value preserved within a
relative error of `2 ^ (-53)`, sign preserved. -/
theorem roundM_spec (a : ℕ) (ha : 0 < a) :
    0 < (roundM a).1 ∧
    ((roundM a).1 : ℚ) * 2 ^ (roundM a).2 ≤ a + a * (2 : ℚ) ^ (-53 : ℤ) ∧
    (a : ℚ) - a * (2 : ℚ) ^ (-53 : ℤ) ≤ ((roundM a).1 : ℚ) * 2 ^ (roundM a).2 := by
  have hu : ((2 : ℚ) ^ (-53 : ℤ)) = ((2 : ℚ) ^ (53 : ℕ))⁻¹ := by
    rw [zpow_neg]
    norm_num
  have hau : 0 ≤ (a : ℚ) * (2 : ℚ) ^ (-53 : ℤ) := by positivity
  unfold roundM
  by_cases hL : bitLen a ≤ 53
  · rw [if_pos hL]
    refine ⟨ha, ?_, ?_⟩ <;> simp only [pow_zero, mul_one] <;> linarith
  · rw [if_neg hL]
    set s := bitLen a - 53 with hs
    simp only
    have hs1 : 1 ≤ s := by omega
    clear_value s
    have hbpos : (0 : ℕ) < 2 ^ s := Nat.pos_pow_of_pos s (by norm_num)
    have hle := rneDiv_q_le a (2 ^ s) hbpos
    have hge := rneDiv_q_ge a (2 ^ s) hbpos
    have hps : (0 : ℚ) < (2 : ℚ) ^ s := by positivity
    have hcast : ((2 ^ s : ℕ) : ℚ) = (2 : ℚ) ^ s := by push_cast; ring
    rw [hcast] at hle hge
    have hbig : (2 : ℚ) ^ (s + 52 : ℕ) ≤ a := by
      have h1 := two_pow_bitLen_pred_le a (by omega)
      have h2 : (2 : ℚ) ^ (bitLen a - 1 : ℕ) ≤ a := by exact_mod_cast h1
      have h3 : (s + 52 : ℕ) = bitLen a - 1 := by omega
      rw [h3]; exact h2
    have h252 : ((2 : ℚ) ^ (52 : ℕ)) / 2 ^ (53 : ℕ) = 1 / 2 := by norm_num
    have hsplit : (2 : ℚ) ^ s / 2 = 2 ^ (s + 52 : ℕ) / 2 ^ (53 : ℕ) := by
      rw [pow_add, mul_div_assoc, h252]
      ring
    have hulp : (2 : ℚ) ^ s / 2 ≤ a * (2 : ℚ) ^ (-53 : ℤ) := by
      rw [hu, ← div_eq_mul_inv, hsplit]
      gcongr
    have hval_le : (rneDiv a (2 ^ s) : ℚ) * 2 ^ s ≤ a + 2 ^ s / 2 := by
      have h0 := mul_le_mul_of_nonneg_right hle (le_of_lt hps)
      calc (rneDiv a (2 ^ s) : ℚ) * 2 ^ s ≤ ((a : ℚ) / 2 ^ s + 1 / 2) * 2 ^ s := h0
        _ = a + 2 ^ s / 2 := by field_simp; ring
    have hval_ge : (a : ℚ) - 2 ^ s / 2 ≤ (rneDiv a (2 ^ s) : ℚ) * 2 ^ s := by
      have h0 := mul_le_mul_of_nonneg_right hge (le_of_lt hps)
      calc (a : ℚ) - 2 ^ s / 2 = ((a : ℚ) / 2 ^ s - 1 / 2) * 2 ^ s := by field_simp; ring
        _ ≤ (rneDiv a (2 ^ s) : ℚ) * 2 ^ s := h0
    refine ⟨?_, le_trans hval_le (add_le_add_left hulp _),
      le_trans (sub_le_sub_left hulp _) hval_ge⟩
    by_contra hz
    have hz0 : rneDiv a (2 ^ s) = 0 := by omega
    rw [hz0] at hval_ge
    simp only [Nat.cast_zero, zero_mul] at hval_ge
    have hmono : (2 : ℚ) ^ s ≤ 2 ^ (s + 52 : ℕ) := by
      apply pow_le_pow_right₀ (by norm_num)
      omega
    linarith

/-- Rounding an integer-times-power-of-two to binary64 keeps the sign and
changes the value by a relative error below `2 ^ (-53)`. -/
theorem normF_bounds (m e : ℤ) (hm : 0 < m) :
    0 < (normF m e).m ∧
    (normF m e).val ≤ ((m : ℚ) * (2 : ℚ) ^ e) * (1 + (2 : ℚ) ^ (-53 : ℤ)) ∧
    ((m : ℚ) * (2 : ℚ) ^ e) * (1 - (2 : ℚ) ^ (-53 : ℤ)) ≤ (normF m e).val := by
  obtain ⟨h1, h2, h3⟩ := roundM_spec m.natAbs (by omega)
  have hme : ((m.natAbs : ℕ) : ℚ) = (m : ℚ) := by
    rw [Int.cast_natAbs]
    exact_mod_cast congrArg (fun z : ℤ => (z : ℚ)) (abs_of_pos hm)
  rw [hme] at h2 h3
  have hval : (normF m e).val =
      ((roundM m.natAbs).1 : ℚ) * 2 ^ (roundM m.natAbs).2 * (2 : ℚ) ^ e := by
    unfold normF F64.val
    rw [if_neg (by omega : ¬ m = 0)]
    simp only [if_pos (le_of_lt hm)]
    push_cast
    rw [zpow_add₀ (by norm_num : (2 : ℚ) ≠ 0), zpow_natCast]
    ring
  have hmF : (normF m e).m = ((roundM m.natAbs).1 : ℤ) := by
    unfold normF
    rw [if_neg (by omega : ¬ m = 0)]
    simp only [if_pos (le_of_lt hm)]
  have hep : (0 : ℚ) < (2 : ℚ) ^ e := two_zpow_pos e
  refine ⟨by rw [hmF]; exact_mod_cast h1, ?_, ?_⟩
  · rw [hval]
    calc ((roundM m.natAbs).1 : ℚ) * 2 ^ (roundM m.natAbs).2 * (2 : ℚ) ^ e
        ≤ ((m : ℚ) + (m : ℚ) * (2 : ℚ) ^ (-53 : ℤ)) * (2 : ℚ) ^ e :=
          mul_le_mul_of_nonneg_right h2 hep.le
      _ = ((m : ℚ) * (2 : ℚ) ^ e) * (1 + (2 : ℚ) ^ (-53 : ℤ)) := by ring
  · rw [hval]
    calc ((m : ℚ) * (2 : ℚ) ^ e) * (1 - (2 : ℚ) ^ (-53 : ℤ))
        = ((m : ℚ) - (m : ℚ) * (2 : ℚ) ^ (-53 : ℤ)) * (2 : ℚ) ^ e := by ring
      _ ≤ ((roundM m.natAbs).1 : ℚ) * 2 ^ (roundM m.natAbs).2 * (2 : ℚ) ^ e :=
          mul_le_mul_of_nonneg_right h3 hep.le

theorem le2_iff (a b : ℕ) (hb : 0 < b) (l : ℤ) :
    le2 a b l = true ↔ (2 : ℚ) ^ l ≤ (a : ℚ) / b := by
  have hb' : (0 : ℚ) < b := by exact_mod_cast hb
  unfold le2
  by_cases hl : 0 ≤ l
  · rw [if_pos hl, decide_eq_true_eq, le_div_iff₀ hb']
    have hcast : (2 : ℚ) ^ l = (2 : ℚ) ^ (l.toNat : ℕ) := by
      rw [← zpow_natCast]
      congr 1
      omega
    rw [hcast]
    constructor
    · intro h
      have h' : ((b * 2 ^ l.toNat : ℕ) : ℚ) ≤ (a : ℚ) := by exact_mod_cast h
      push_cast at h'
      linarith
    · intro h
      have h' : ((b * 2 ^ l.toNat : ℕ) : ℚ) ≤ (a : ℚ) := by push_cast; linarith
      exact_mod_cast h'
  · rw [if_neg hl, decide_eq_true_eq]
    have hkpos : (0 : ℚ) < (2 : ℚ) ^ ((-l).toNat : ℕ) := by positivity
    have hk : (2 : ℚ) ^ l = 1 / (2 : ℚ) ^ ((-l).toNat : ℕ) := by
      rw [one_div, ← zpow_natCast, ← zpow_neg]
      congr 1
      omega
    rw [hk, div_le_div_iff₀ hkpos hb']
    constructor
    · intro h
      have h' : ((b : ℕ) : ℚ) ≤ ((a * 2 ^ (-l).toNat : ℕ) : ℚ) := by exact_mod_cast h
      push_cast at h'
      linarith
    · intro h
      have h' : ((b : ℕ) : ℚ) ≤ ((a * 2 ^ (-l).toNat : ℕ) : ℚ) := by push_cast; linarith
      exact_mod_cast h'

theorem flog2_bounds (a b : ℕ) (ha : 0 < a) (hb : 0 < b) :
    (2 : ℚ) ^ flog2 a b ≤ (a : ℚ) / b ∧ (a : ℚ) / b < (2 : ℚ) ^ (flog2 a b + 1) := by
  have hb' : (0 : ℚ) < b := by exact_mod_cast hb
  have ha' : (0 : ℚ) < a := by exact_mod_cast ha
  have hLa1 : 1 ≤ bitLen a := bitLen_pos a (by omega)
  have hLb1 : 1 ≤ bitLen b := bitLen_pos b (by omega)
  have ha2 : (a : ℚ) < (2 : ℚ) ^ ((bitLen a : ℤ)) := by
    rw [zpow_natCast]
    exact_mod_cast lt_two_pow_bitLen a
  have hb2 : (b : ℚ) < (2 : ℚ) ^ ((bitLen b : ℤ)) := by
    rw [zpow_natCast]
    exact_mod_cast lt_two_pow_bitLen b
  have ha1 : (2 : ℚ) ^ ((bitLen a : ℤ) - 1) ≤ a := by
    rw [← two_pow_natsub _ hLa1]
    exact_mod_cast two_pow_bitLen_pred_le a (by omega)
  have hb1 : (2 : ℚ) ^ ((bitLen b : ℤ) - 1) ≤ b := by
    rw [← two_pow_natsub _ hLb1]
    exact_mod_cast two_pow_bitLen_pred_le b (by omega)
  unfold flog2
  by_cases hle : le2 a b ((bitLen a : ℤ) - (bitLen b : ℤ))
  · rw [if_pos hle]
    refine ⟨(le2_iff a b hb _).mp hle, ?_⟩
    have hstep : (a : ℚ) / b < (2 : ℚ) ^ ((bitLen a : ℤ)) / (2 : ℚ) ^ ((bitLen b : ℤ) - 1) :=
      div_lt_div ha2 hb1 (by positivity) (two_zpow_pos _)
    calc (a : ℚ) / b < (2 : ℚ) ^ ((bitLen a : ℤ)) / (2 : ℚ) ^ ((bitLen b : ℤ) - 1) := hstep
      _ = (2 : ℚ) ^ ((bitLen a : ℤ) - (bitLen b : ℤ) + 1) := by
          rw [← zpow_sub₀ (by norm_num : (2 : ℚ) ≠ 0)]
          congr 1
          ring
  · rw [if_neg hle]
    constructor
    · have hstep1 : (2 : ℚ) ^ ((bitLen a : ℤ) - 1) / (2 : ℚ) ^ ((bitLen b : ℤ))
          < (2 : ℚ) ^ ((bitLen a : ℤ) - 1) / b :=
        div_lt_div_of_pos_left (two_zpow_pos _) hb' hb2
      have hstep2 : (2 : ℚ) ^ ((bitLen a : ℤ) - 1) / b ≤ (a : ℚ) / b :=
        (div_le_div_right hb').mpr ha1
      have heq : (2 : ℚ) ^ ((bitLen a : ℤ) - (bitLen b : ℤ) - 1)
          = (2 : ℚ) ^ ((bitLen a : ℤ) - 1) / (2 : ℚ) ^ ((bitLen b : ℤ)) := by
        rw [← zpow_sub₀ (by norm_num : (2 : ℚ) ≠ 0)]
        congr 1
        ring
      rw [heq]
      linarith
    · have hnot : ¬ ((2 : ℚ) ^ ((bitLen a : ℤ) - (bitLen b : ℤ)) ≤ (a : ℚ) / b) := by
        intro hcontra
        exact hle ((le2_iff a b hb _).mpr hcontra)
      have : (a : ℚ) / b < (2 : ℚ) ^ ((bitLen a : ℤ) - (bitLen b : ℤ)) := lt_of_not_le hnot
      calc (a : ℚ) / b < (2 : ℚ) ^ ((bitLen a : ℤ) - (bitLen b : ℤ)) := this
        _ = (2 : ℚ) ^ ((bitLen a : ℤ) - (bitLen b : ℤ) - 1 + 1) := by congr 1; ring

/-- Core estimate for the correctly rounded quotient: with
`A / B = q * 2 ^ t` and `2 ^ (52 - t) ≤ q`, rounding `A / B` to an integer
changes `q` by a relative error below `2 ^ (-53)`. -/
theorem fdivAux (q : ℚ) (A B : ℕ) (t : ℤ) (hB : 0 < B) (hq : 0 < q)
    (hAB : (A : ℚ) / B = q * (2 : ℚ) ^ t)
    (hlow : (2 : ℚ) ^ (52 - t) ≤ q) :
    0 < rneDiv A B ∧
    (rneDiv A B : ℚ) * (2 : ℚ) ^ (-t) ≤ q * (1 + (2 : ℚ) ^ (-53 : ℤ)) ∧
    q * (1 - (2 : ℚ) ^ (-53 : ℤ)) ≤ (rneDiv A B : ℚ) * (2 : ℚ) ^ (-t) := by
  have hle := rneDiv_q_le A B hB
  have hge := rneDiv_q_ge A B hB
  rw [hAB] at hle hge
  have hmt : (0 : ℚ) < (2 : ℚ) ^ (-t) := two_zpow_pos _
  have htt : (2 : ℚ) ^ t * (2 : ℚ) ^ (-t) = 1 := by
    rw [← zpow_add₀ (by norm_num : (2 : ℚ) ≠ 0)]
    norm_num
  have hulp : (2 : ℚ) ^ (-t) / 2 ≤ q * (2 : ℚ) ^ (-53 : ℤ) := by
    have h1 : (2 : ℚ) ^ (52 - t) * (2 : ℚ) ^ (-53 : ℤ) = (2 : ℚ) ^ (-t) / 2 := by
      rw [← zpow_add₀ (by norm_num : (2 : ℚ) ≠ 0)]
      rw [div_eq_mul_inv, ← zpow_neg_one, ← zpow_add₀ (by norm_num : (2 : ℚ) ≠ 0)]
      congr 1
      ring
    calc (2 : ℚ) ^ (-t) / 2 = (2 : ℚ) ^ (52 - t) * (2 : ℚ) ^ (-53 : ℤ) := h1.symm
      _ ≤ q * (2 : ℚ) ^ (-53 : ℤ) :=
        mul_le_mul_of_nonneg_right hlow (le_of_lt (two_zpow_pos _))
  have hup : (rneDiv A B : ℚ) * (2 : ℚ) ^ (-t) ≤ q + (2 : ℚ) ^ (-t) / 2 := by
    have h0 := mul_le_mul_of_nonneg_right hle hmt.le
    calc (rneDiv A B : ℚ) * (2 : ℚ) ^ (-t)
        ≤ (q * (2 : ℚ) ^ t + 1 / 2) * (2 : ℚ) ^ (-t) := h0
      _ = q * ((2 : ℚ) ^ t * (2 : ℚ) ^ (-t)) + (2 : ℚ) ^ (-t) / 2 := by ring
      _ = q + (2 : ℚ) ^ (-t) / 2 := by rw [htt]; ring
  have hdn : q - (2 : ℚ) ^ (-t) / 2 ≤ (rneDiv A B : ℚ) * (2 : ℚ) ^ (-t) := by
    have h0 := mul_le_mul_of_nonneg_right hge hmt.le
    calc q - (2 : ℚ) ^ (-t) / 2
        = q * ((2 : ℚ) ^ t * (2 : ℚ) ^ (-t)) - (2 : ℚ) ^ (-t) / 2 := by rw [htt]; ring
      _ = (q * (2 : ℚ) ^ t - 1 / 2) * (2 : ℚ) ^ (-t) := by ring
      _ ≤ (rneDiv A B : ℚ) * (2 : ℚ) ^ (-t) := h0
  refine ⟨?_, ?_, ?_⟩
  case refine_2 =>
    calc (rneDiv A B : ℚ) * (2 : ℚ) ^ (-t) ≤ q + (2 : ℚ) ^ (-t) / 2 := hup
      _ ≤ q + q * (2 : ℚ) ^ (-53 : ℤ) := by linarith
      _ = q * (1 + (2 : ℚ) ^ (-53 : ℤ)) := by ring
  case refine_3 =>
    calc q * (1 - (2 : ℚ) ^ (-53 : ℤ)) = q - q * (2 : ℚ) ^ (-53 : ℤ) := by ring
      _ ≤ q - (2 : ℚ) ^ (-t) / 2 := by linarith
      _ ≤ (rneDiv A B : ℚ) * (2 : ℚ) ^ (-t) := hdn
  by_contra hz
  have hz0 : rneDiv A B = 0 := by omega
  rw [hz0] at hdn
  simp only [Nat.cast_zero, zero_mul] at hdn
  nlinarith [hulp, hq, two_zpow_pos (-53 : ℤ), two_zpow_pos (-t)]

theorem val_mk (m e : ℤ) : (⟨m, e⟩ : F64).val = (m : ℚ) * (2 : ℚ) ^ e := rfl

theorem mk_m (m e : ℤ) : (⟨m, e⟩ : F64).m = m := rfl

theorem fdivPos_bounds (a b : ℕ) (ha : 0 < a) (hb : 0 < b) :
    0 < (fdivPos a b).m ∧
    (fdivPos a b).val ≤ ((a : ℚ) / b) * (1 + (2 : ℚ) ^ (-53 : ℤ)) ∧
    ((a : ℚ) / b) * (1 - (2 : ℚ) ^ (-53 : ℤ)) ≤ (fdivPos a b).val := by
  have hb' : (0 : ℚ) < b := by exact_mod_cast hb
  have ha' : (0 : ℚ) < a := by exact_mod_cast ha
  have hq : 0 < (a : ℚ) / b := by positivity
  obtain ⟨hl, _⟩ := flog2_bounds a b ha hb
  have hlow : (2 : ℚ) ^ (52 - (52 - flog2 a b)) ≤ (a : ℚ) / b := by
    rw [(by ring : (52 - (52 - flog2 a b) : ℤ) = flog2 a b)]
    exact hl
  unfold fdivPos
  dsimp only
  by_cases ht : (0 : ℤ) ≤ 52 - flog2 a b
  · rw [if_pos ht]
    have hAB : ((a * 2 ^ (52 - flog2 a b).toNat : ℕ) : ℚ) / b
        = ((a : ℚ) / b) * (2 : ℚ) ^ (52 - flog2 a b) := by
      push_cast
      rw [← zpow_natCast (2 : ℚ) (52 - flog2 a b).toNat,
        (by omega : (((52 - flog2 a b).toNat : ℕ) : ℤ) = 52 - flog2 a b)]
      ring
    obtain ⟨h1, h2, h3⟩ :=
      fdivAux ((a : ℚ) / b) (a * 2 ^ (52 - flog2 a b).toNat) b (52 - flog2 a b) hb hq hAB hlow
    simp only [val_mk, mk_m]
    refine ⟨by exact_mod_cast h1, by exact_mod_cast h2, by exact_mod_cast h3⟩
  · rw [if_neg ht]
    have hBpos : 0 < b * 2 ^ (-(52 - flog2 a b)).toNat := by positivity
    have hAB : ((a : ℕ) : ℚ) / ((b * 2 ^ (-(52 - flog2 a b)).toNat : ℕ) : ℚ)
        = ((a : ℚ) / b) * (2 : ℚ) ^ (52 - flog2 a b) := by
      push_cast
      rw [← zpow_natCast (2 : ℚ) (-(52 - flog2 a b)).toNat,
        (by omega : ((((-(52 - flog2 a b)).toNat : ℕ)) : ℤ) = flog2 a b - 52)]
      rw [div_mul_eq_div_div, div_eq_mul_inv ((a : ℚ) / b), ← zpow_neg]
      congr 1
      ring
    obtain ⟨h1, h2, h3⟩ :=
      fdivAux ((a : ℚ) / b) a (b * 2 ^ (-(52 - flog2 a b)).toNat) (52 - flog2 a b) hBpos hq hAB hlow
    simp only [val_mk, mk_m]
    refine ⟨by exact_mod_cast h1, by exact_mod_cast h2, by exact_mod_cast h3⟩

theorem fdiv_pos_eq (a b : ℕ) (ha : 0 < a) :
    fdiv a b = fdivPos a b := by
  unfold fdiv
  rw [if_neg (by exact_mod_cast ha.ne' : ¬ (a : ℤ) = 0)]
  rw [if_pos (by simp)]
  simp

/-- Bounds for the binary64 conversion of a positive integer. -/
theorem fofInt_bounds (z : ℤ) (hz : 0 < z) :
    0 < (fofInt z).m ∧
    (fofInt z).val ≤ (z : ℚ) * (1 + (2 : ℚ) ^ (-53 : ℤ)) ∧
    (z : ℚ) * (1 - (2 : ℚ) ^ (-53 : ℤ)) ≤ (fofInt z).val := by
  obtain ⟨h1, h2, h3⟩ := normF_bounds z 0 hz
  rw [zpow_zero, mul_one] at h2 h3
  exact ⟨h1, h2, h3⟩

/-- Relative-error bounds for the binary64 product of two positive values. -/
theorem fmul_bounds (x y : F64) (hx : 0 < x.m) (hy : 0 < y.m) :
    0 < (fmul x y).m ∧
    (fmul x y).val ≤ (x.val * y.val) * (1 + (2 : ℚ) ^ (-53 : ℤ)) ∧
    (x.val * y.val) * (1 - (2 : ℚ) ^ (-53 : ℤ)) ≤ (fmul x y).val := by
  obtain ⟨h1, h2, h3⟩ := normF_bounds (x.m * y.m) (x.e + y.e) (by positivity)
  have hvv : ((x.m * y.m : ℤ) : ℚ) * (2 : ℚ) ^ (x.e + y.e) = x.val * y.val := by
    unfold F64.val
    push_cast
    rw [zpow_add₀ (by norm_num : (2 : ℚ) ≠ 0)]
    ring
  rw [hvv] at h2 h3
  exact ⟨h1, h2, h3⟩

theorem val_shift (z : F64) (e0 : ℤ) (he : e0 ≤ z.e) :
    z.val = ((z.m * 2 ^ (z.e - e0).toNat : ℤ) : ℚ) * (2 : ℚ) ^ e0 := by
  unfold F64.val
  push_cast
  rw [← zpow_natCast (2 : ℚ) (z.e - e0).toNat,
    (by omega : (((z.e - e0).toNat : ℕ) : ℤ) = z.e - e0),
    mul_assoc, ← zpow_add₀ (by norm_num : (2 : ℚ) ≠ 0)]
  congr 2
  ring

theorem fle_iff (x y : F64) : fle x y = true ↔ x.val ≤ y.val := by
  unfold fle
  rw [decide_eq_true_eq]
  rw [val_shift x (min x.e y.e) (min_le_left _ _),
    val_shift y (min x.e y.e) (min_le_right _ _)]
  constructor
  · intro h
    exact mul_le_mul_of_nonneg_right (by exact_mod_cast h) (two_zpow_pos _).le
  · intro h
    exact_mod_cast le_of_mul_le_mul_right h (two_zpow_pos _)

theorem feq_iff (x y : F64) : feq x y = true ↔ x.val = y.val := by
  unfold feq
  rw [decide_eq_true_eq]
  rw [val_shift x (min x.e y.e) (min_le_left _ _),
    val_shift y (min x.e y.e) (min_le_right _ _)]
  constructor
  · intro h
    rw [(by exact_mod_cast h :
      ((x.m * 2 ^ (x.e - min x.e y.e).toNat : ℤ) : ℚ) = (y.m * 2 ^ (y.e - min x.e y.e).toNat : ℤ))]
  · intro h
    have := mul_right_cancel₀ (ne_of_gt (two_zpow_pos (min x.e y.e))) h
    exact_mod_cast this

theorem flt_iff (x y : F64) : flt x y = true ↔ x.val < y.val := by
  unfold flt
  rw [Bool.not_eq_true']
  rw [← Bool.not_eq_true (fle y x)]
  constructor
  · intro h
    exact lt_of_not_le fun hc => h ((fle_iff y x).mpr hc)
  · intro h hc
    exact absurd ((fle_iff y x).mp hc) (not_le_of_lt h)

theorem ffloorNat_eq (x : F64) (hm : 0 ≤ x.m) : (ffloorNat x : ℤ) = ⌊x.val⌋ := by
  unfold ffloorNat F64.val
  by_cases he : 0 ≤ x.e
  · rw [if_pos he]
    have hval : (x.m : ℚ) * (2 : ℚ) ^ x.e = ((x.m * 2 ^ x.e.toNat : ℤ) : ℚ) := by
      push_cast
      rw [← zpow_natCast (2 : ℚ) x.e.toNat, (by omega : ((x.e.toNat : ℕ) : ℤ) = x.e)]
    rw [hval, Int.floor_intCast, Int.toNat_of_nonneg (mul_nonneg hm (by positivity))]
  · rw [if_neg he]
    have hval : (x.m : ℚ) * (2 : ℚ) ^ x.e = (x.m : ℚ) / (((2 ^ (-x.e).toNat : ℕ) : ℕ) : ℚ) := by
      push_cast
      rw [div_eq_mul_inv, ← zpow_natCast (2 : ℚ) (-x.e).toNat, ← zpow_neg,
        (by omega : -(((-x.e).toNat : ℕ) : ℤ) = x.e)]
    rw [hval, Rat.floor_intCast_div_natCast,
      Int.toNat_of_nonneg (Int.ediv_nonneg hm (by positivity))]
    congr 1
    push_cast
    ring

/-- The upper and lower estimates for one resize target dimension
`int(c * (1400 / m))`: below 1401 always, and above 1399 for the long
side `c = m`. -/
theorem scale_side_bounds (m c : ℕ) (hm : 1400 < m) (hc : 0 < c) (hcm : c ≤ m) :
    0 < (fmul (fofInt c) (fdiv 1400 m)).m ∧
    (fmul (fofInt c) (fdiv 1400 m)).val < 1401 ∧
    (c = m → (1399 : ℚ) < (fmul (fofInt c) (fdiv 1400 m)).val) := by
  have hm0 : 0 < m := by omega
  rw [(by norm_num : (1400 : ℤ) = ((1400 : ℕ) : ℤ)), fdiv_pos_eq 1400 m (by norm_num)]
  obtain ⟨hs1, hs2, hs3⟩ := fdivPos_bounds 1400 m (by norm_num) hm0
  obtain ⟨hf1, hf2, hf3⟩ := fofInt_bounds c (by exact_mod_cast hc)
  obtain ⟨hp1, hp2, hp3⟩ := fmul_bounds (fofInt c) (fdivPos 1400 m) hf1 hs1
  push_cast at hf2 hf3
  have hc14 : ((1400 : ℕ) : ℚ) = (1400 : ℚ) := by norm_num
  rw [hc14] at hs2 hs3
  have hone_sub : (0 : ℚ) < 1 - (2 : ℚ) ^ (-53 : ℤ) := by norm_num
  have hupos : (0 : ℚ) < (2 : ℚ) ^ (-53 : ℤ) := two_zpow_pos _
  have huval : (2 : ℚ) ^ (-53 : ℤ) = (9007199254740992 : ℚ)⁻¹ := by norm_num
  have husmall : (2 : ℚ) ^ (-53 : ℤ) < 1 / 2 := by rw [huval]; norm_num
  have hm' : (0 : ℚ) < m := by exact_mod_cast hm0
  have hc' : (0 : ℚ) < c := by exact_mod_cast hc
  have hq : (0 : ℚ) < 1400 / (m : ℚ) := by positivity
  have hsval : 0 < (fdivPos 1400 m).val :=
    lt_of_lt_of_le (by positivity) hs3
  have hfval : 0 < (fofInt (c : ℤ)).val := lt_of_lt_of_le (by positivity) hf3
  have hqle : 1400 / (m : ℚ) * c ≤ 1400 := by
    rw [div_mul_eq_mul_div, div_le_iff₀ hm']
    have hcm' : (c : ℚ) ≤ m := by exact_mod_cast hcm
    nlinarith
  refine ⟨hp1, ?_, ?_⟩
  · have step1 : (fofInt c).val * (fdivPos 1400 m).val
        ≤ ((c : ℚ) * (1 + (2 : ℚ) ^ (-53 : ℤ))) * (1400 / (m : ℚ) * (1 + (2 : ℚ) ^ (-53 : ℤ))) :=
      mul_le_mul hf2 hs2 hsval.le (by positivity)
    have step2 : (fmul (fofInt c) (fdivPos 1400 m)).val
        ≤ ((c : ℚ) * (1 + (2 : ℚ) ^ (-53 : ℤ))) * (1400 / (m : ℚ) * (1 + (2 : ℚ) ^ (-53 : ℤ)))
            * (1 + (2 : ℚ) ^ (-53 : ℤ)) :=
      le_trans hp2 (mul_le_mul_of_nonneg_right step1 (by positivity))
    have step3 : ((c : ℚ) * (1 + (2 : ℚ) ^ (-53 : ℤ))) * (1400 / (m : ℚ) * (1 + (2 : ℚ) ^ (-53 : ℤ)))
            * (1 + (2 : ℚ) ^ (-53 : ℤ))
        = (1400 / (m : ℚ) * c) *
            ((1 + (2 : ℚ) ^ (-53 : ℤ)) * (1 + (2 : ℚ) ^ (-53 : ℤ)) * (1 + (2 : ℚ) ^ (-53 : ℤ))) := by
      ring
    have step4 : (1400 / (m : ℚ) * c) *
            ((1 + (2 : ℚ) ^ (-53 : ℤ)) * (1 + (2 : ℚ) ^ (-53 : ℤ)) * (1 + (2 : ℚ) ^ (-53 : ℤ)))
        ≤ 1400 * ((1 + (2 : ℚ) ^ (-53 : ℤ)) * (1 + (2 : ℚ) ^ (-53 : ℤ)) * (1 + (2 : ℚ) ^ (-53 : ℤ))) :=
      mul_le_mul_of_nonneg_right hqle (by positivity)
    have step5 : (1400 : ℚ) * ((1 + (2 : ℚ) ^ (-53 : ℤ)) * (1 + (2 : ℚ) ^ (-53 : ℤ))
            * (1 + (2 : ℚ) ^ (-53 : ℤ))) < 1401 := by
      rw [huval]
      norm_num
    linarith [step2, step3.symm.le, step4]
  · intro hceq
    subst hceq
    have hmq : (c : ℚ) * (1400 / (c : ℚ)) = 1400 := by
      field_simp
    have step1 : ((c : ℚ) * (1 - (2 : ℚ) ^ (-53 : ℤ))) * (1400 / (c : ℚ) * (1 - (2 : ℚ) ^ (-53 : ℤ)))
        ≤ (fofInt (c : ℤ)).val * (fdivPos 1400 c).val :=
      mul_le_mul hf3 hs3 (by positivity) hfval.le
    have step2 : ((c : ℚ) * (1 - (2 : ℚ) ^ (-53 : ℤ))) * (1400 / (c : ℚ) * (1 - (2 : ℚ) ^ (-53 : ℤ)))
            * (1 - (2 : ℚ) ^ (-53 : ℤ))
        ≤ (fofInt (c : ℤ)).val * (fdivPos 1400 c).val * (1 - (2 : ℚ) ^ (-53 : ℤ)) :=
      mul_le_mul_of_nonneg_right step1 hone_sub.le
    have step3 : ((c : ℚ) * (1 - (2 : ℚ) ^ (-53 : ℤ))) * (1400 / (c : ℚ) * (1 - (2 : ℚ) ^ (-53 : ℤ)))
            * (1 - (2 : ℚ) ^ (-53 : ℤ))
        = ((c : ℚ) * (1400 / (c : ℚ))) *
            ((1 - (2 : ℚ) ^ (-53 : ℤ)) * (1 - (2 : ℚ) ^ (-53 : ℤ)) * (1 - (2 : ℚ) ^ (-53 : ℤ))) := by
      ring
    have step5 : (1399 : ℚ) < 1400 * ((1 - (2 : ℚ) ^ (-53 : ℤ)) * (1 - (2 : ℚ) ^ (-53 : ℤ))
            * (1 - (2 : ℚ) ^ (-53 : ℤ))) := by
      rw [huval]
      norm_num
    have := le_trans step2 hp3
    rw [step3, hmq] at step2
    linarith [le_trans step2 hp3]

theorem fofInt_zero : fofInt 0 = ⟨0, 0⟩ := rfl

theorem fmul_zero_left (s : F64) : fmul ⟨0, 0⟩ s = ⟨0, 0⟩ := by
  unfold fmul normF
  simp

theorem ffloorNat_zero : ffloorNat ⟨0, 0⟩ = 0 := rfl

/-- With the long side above 1400 the computed scale factor is strictly
below 1, hence the `scale != 1.0` test of line 83 always fires. -/
theorem scaleOf_ne_one (h w : ℕ) (hm : 1400 < max h w) :
    feq (scaleOf h w) ⟨1, 0⟩ = false := by
  unfold scaleOf
  rw [if_pos hm]
  generalize hmxdef : max h w = mx at hm
  have hmx : 0 < mx := by omega
  rw [(by norm_num : (1400 : ℤ) = ((1400 : ℕ) : ℤ)), fdiv_pos_eq 1400 mx (by norm_num)]
  obtain ⟨_, hs2, _⟩ := fdivPos_bounds 1400 mx (by norm_num) hmx
  have hc14 : ((1400 : ℕ) : ℚ) = (1400 : ℚ) := by norm_num
  rw [hc14] at hs2
  have hmx' : (1401 : ℚ) ≤ (mx : ℚ) := by exact_mod_cast hm
  have hqb : (1400 : ℚ) / (mx : ℚ) ≤ 1400 / 1401 :=
    div_le_div_of_nonneg_left (by norm_num) (by norm_num) hmx'
  have hlt1 : (fdivPos 1400 mx).val < 1 := by
    have hnum : (1400 : ℚ) / 1401 * (1 + (2 : ℚ) ^ (-53 : ℤ)) < 1 := by norm_num
    have hb : (1400 : ℚ) / (mx : ℚ) * (1 + (2 : ℚ) ^ (-53 : ℤ))
        ≤ 1400 / 1401 * (1 + (2 : ℚ) ^ (-53 : ℤ)) :=
      mul_le_mul_of_nonneg_right hqb (by positivity)
    linarith
  have hone : (⟨1, 0⟩ : F64).val = 1 := by rw [val_mk]; norm_num
  rw [← Bool.not_eq_true]
  intro hcontra
  rw [feq_iff, hone] at hcontra
  rw [hcontra] at hlt1
  exact absurd hlt1 (lt_irrefl 1)

/-- The normalised dimensions when downscaling happens: both at most 1400,
and the longer one at least 1399. -/
theorem normHW_of_gt (h w : ℕ) (hm : 1400 < max h w) :
    normH h w ≤ 1400 ∧ normW h w ≤ 1400 ∧
    (0 < h → 0 < w → 1399 ≤ max (normH h w) (normW h w)) := by
  have hne := scaleOf_ne_one h w hm
  have hsc : scaleOf h w = fdiv (1400 : ℤ) ((max h w : ℕ) : ℤ) := by
    unfold scaleOf
    rw [if_pos hm]
  have hside : ∀ c : ℕ, 0 < c → c ≤ max h w →
      ffloorNat (fmul (fofInt c) (scaleOf h w)) ≤ 1400 ∧
      (c = max h w → 1399 ≤ ffloorNat (fmul (fofInt c) (scaleOf h w))) := by
    intro c hc hcm
    obtain ⟨hb1, hb2, hb3⟩ := scale_side_bounds (max h w) c hm hc hcm
    rw [← hsc] at hb1 hb2 hb3
    have hfl := ffloorNat_eq (fmul (fofInt c) (scaleOf h w)) hb1.le
    constructor
    · have hlt : ⌊(fmul (fofInt (c : ℤ)) (scaleOf h w)).val⌋ < (1401 : ℤ) :=
        Int.floor_lt.mpr (by exact_mod_cast hb2)
      omega
    · intro hceq
      have h1399 := hb3 hceq
      have hge : (1399 : ℤ) ≤ ⌊(fmul (fofInt (c : ℤ)) (scaleOf h w)).val⌋ :=
        Int.le_floor.mpr (by exact_mod_cast h1399.le)
      omega
  have hzeroH : h = 0 → normH h w = 0 := by
    intro h0
    unfold normH
    rw [if_neg (by rw [hne]; simp), h0]
    rw [(by norm_num : ((0 : ℕ) : ℤ) = (0 : ℤ)), fofInt_zero, fmul_zero_left, ffloorNat_zero]
  have hzeroW : w = 0 → normW h w = 0 := by
    intro h0
    unfold normW
    rw [if_neg (by rw [hne]; simp), h0]
    rw [(by norm_num : ((0 : ℕ) : ℤ) = (0 : ℤ)), fofInt_zero, fmul_zero_left, ffloorNat_zero]
  have hH : normH h w ≤ 1400 := by
    rcases Nat.eq_zero_or_pos h with h0 | h0
    · rw [hzeroH h0]; omega
    · unfold normH
      rw [if_neg (by rw [hne]; simp)]
      exact (hside h h0 (Nat.le_max_left h w)).1
  have hW : normW h w ≤ 1400 := by
    rcases Nat.eq_zero_or_pos w with h0 | h0
    · rw [hzeroW h0]; omega
    · unfold normW
      rw [if_neg (by rw [hne]; simp)]
      exact (hside w h0 (Nat.le_max_right h w)).1
  refine ⟨hH, hW, ?_⟩
  intro hh hw
  rcases Nat.le_total w h with hcase | hcase
  · have hmaxeq : max h w = h := Nat.max_eq_left hcase
    have hgeH : 1399 ≤ normH h w := by
      unfold normH
      rw [if_neg (by rw [hne]; simp)]
      exact (hside h hh (Nat.le_max_left h w)).2 hmaxeq.symm
    omega
  · have hmaxeq : max h w = w := Nat.max_eq_right hcase
    have hgeW : 1399 ≤ normW h w := by
      unfold normW
      rw [if_neg (by rw [hne]; simp)]
      exact (hside w hw (Nat.le_max_right h w)).2 hmaxeq.symm
    omega

/-! ### Characterisation of the pipeline control flow -/

theorem normalizeStage_none_iff (ops : Ops) (img : ColorImage) :
    normalizeStage ops img = none ↔
      (feq (scaleOf img.1 img.2.1) ⟨1, 0⟩ = true ∧ (img.1 = 0 ∨ img.2.1 = 0)) ∨
      (feq (scaleOf img.1 img.2.1) ⟨1, 0⟩ = false ∧
        (normH img.1 img.2.1 = 0 ∨ normW img.1 img.2.1 = 0)) := by
  unfold normalizeStage
  by_cases h1 : feq (scaleOf img.1 img.2.1) ⟨1, 0⟩
  · rw [if_pos h1]
    by_cases h2 : img.1 = 0 ∨ img.2.1 = 0
    · simp [h1, h2]
    · simp [h1, h2]
  · rw [if_neg h1]
    rw [Bool.not_eq_true] at h1
    by_cases h2 : normH img.1 img.2.1 = 0 ∨ normW img.1 img.2.1 = 0
    · simp [h1, h2]
    · simp [h1, h2]

theorem normalizeStage_some_dims (ops : Ops) (img n : ColorImage)
    (h : normalizeStage ops img = some n) :
    n.1 = normH img.1 img.2.1 ∧ n.2.1 = normW img.1 img.2.1 := by
  unfold normalizeStage at h
  by_cases h1 : feq (scaleOf img.1 img.2.1) ⟨1, 0⟩
  · rw [if_pos h1] at h
    by_cases h2 : img.1 = 0 ∨ img.2.1 = 0
    · rw [if_pos h2] at h
      exact absurd h (by simp)
    · rw [if_neg h2] at h
      have hn : n = img := by exact (Option.some.injEq _ _ ▸ h).symm
      subst hn
      unfold normH normW
      rw [if_pos h1, if_pos h1]
      exact ⟨rfl, rfl⟩
  · rw [if_neg h1] at h
    by_cases h2 : normH img.1 img.2.1 = 0 ∨ normW img.1 img.2.1 = 0
    · rw [if_pos h2] at h
      exact absurd h (by simp)
    · rw [if_neg h2] at h
      have hn : n = ⟨normH img.1 img.2.1, normW img.1 img.2.1,
          ops.resizeArea3 (normH img.1 img.2.1) (normW img.1 img.2.1) img.2.2⟩ := by
        exact (Option.some.injEq _ _ ▸ h).symm
      subst hn
      exact ⟨rfl, rfl⟩

theorem add_halftone_none_iff (ops : Ops) {h w : ℕ} (g : Gray h w) (s : F64) :
    add_halftone_shading ops g s = none ↔
      fle s ⟨0, 0⟩ = false ∧
      (w / halftoneBlock s = 0 ∨ h / halftoneBlock s = 0) := by
  unfold add_halftone_shading
  by_cases h1 : fle s ⟨0, 0⟩
  · rw [if_pos h1]
    simp [h1]
  · rw [if_neg h1]
    rw [Bool.not_eq_true] at h1
    by_cases h2 : w / halftoneBlock s = 0 ∨ h / halftoneBlock s = 0
    · rw [if_pos h2]
      simp [h1, h2]
    · rw [if_neg h2]
      simp [h1, h2]

theorem hqsCore_none_iff (ops : Ops) (img : ColorImage) (lw d : ℤ) :
    hqsCore ops img lw d = none ↔
      normalizeStage ops img = none ∨
      ∃ n, normalizeStage ops img = some n ∧
        add_halftone_shading ops (enhance ops (ops.cvtGray n.2.2)) (shadeStrength d) = none := by
  unfold hqsCore
  cases hn : normalizeStage ops img with
  | none => simp
  | some n =>
    simp only [Option.some_bind]
    cases hs : add_halftone_shading ops (enhance ops (ops.cvtGray n.2.2)) (shadeStrength d) with
    | none => simp [hs]
    | some sh => simp [hs]

theorem hqsCore_some_shape (ops : Ops) (img : ColorImage) (lw d : ℤ) (s : ColorImage)
    (h : hqsCore ops img lw d = some s) :
    ∃ n, normalizeStage ops img = some n ∧
      ∃ shade, add_halftone_shading ops (enhance ops (ops.cvtGray n.2.2))
          (shadeStrength d) = some shade ∧
        s = ⟨n.1, n.2.1, composite (fun i j =>
          Nat.lor (lineMaskOf ops (enhance ops (ops.cvtGray n.2.2)) d lw i j) (shade i j))⟩ := by
  unfold hqsCore at h
  cases hn : normalizeStage ops img with
  | none => rw [hn] at h; simp at h
  | some n =>
    rw [hn] at h
    simp only [Option.some_bind] at h
    cases hs : add_halftone_shading ops (enhance ops (ops.cvtGray n.2.2)) (shadeStrength d) with
    | none => rw [hs] at h; simp at h
    | some shade =>
      rw [hs] at h
      simp only [Option.map_some'] at h
      exact ⟨n, rfl, shade, hs, (Option.some.injEq _ _ ▸ h).symm⟩

/-! ### The skeletonisation loop -/

theorem iterFix_of_fix {h w : ℕ} (step : Gray h w → Gray h w) (y : Gray h w)
    (hy : step y = y) : ∀ n, iterFix step n y = y := by
  intro n
  induction n with
  | zero => rfl
  | succ n _ => rw [iterFix, if_pos hy]

theorem pixSum_lt_of_le_of_ne {h w : ℕ} (f g : Gray h w)
    (hle : ∀ i j, f i j ≤ g i j) (hne : f ≠ g) : pixSum f < pixSum g := by
  obtain ⟨i, hi⟩ := Function.ne_iff.mp hne
  obtain ⟨j, hj⟩ := Function.ne_iff.mp hi
  unfold pixSum
  apply Finset.sum_lt_sum (fun i2 _ => Finset.sum_le_sum fun j2 _ => hle i2 j2)
  exact ⟨i, Finset.mem_univ i,
    Finset.sum_lt_sum (fun j2 _ => hle i j2)
      ⟨j, Finset.mem_univ j, lt_of_le_of_ne (hle i j) hj⟩⟩

theorem iterFix_fix {h w : ℕ} (step : Gray h w → Gray h w)
    (hstep : ∀ (x : Gray h w) (i : Fin h) (j : Fin w), step x i j ≤ x i j) :
    ∀ (n : ℕ) (x : Gray h w), pixSum x < n →
      step (iterFix step n x) = iterFix step n x := by
  intro n
  induction n with
  | zero => intro x hx; omega
  | succ n ih =>
    intro x hx
    rw [iterFix]
    by_cases hfix : step x = x
    · rw [if_pos hfix]
      exact hfix
    · rw [if_neg hfix]
      exact ih (step x) (by
        have := pixSum_lt_of_le_of_ne (step x) x (hstep x) hfix
        omega)

theorem iterFix_le_one {h w : ℕ} (step : Gray h w → Gray h w)
    (hstep : ∀ (x : Gray h w) (i : Fin h) (j : Fin w), step x i j ≤ x i j) :
    ∀ (n : ℕ) (x : Gray h w), (∀ i j, x i j ≤ 1) →
      ∀ i j, iterFix step n x i j ≤ 1 := by
  intro n
  induction n with
  | zero => intro x hx; exact hx
  | succ n ih =>
    intro x hx i j
    rw [iterFix]
    by_cases hfix : step x = x
    · rw [if_pos hfix]; exact hx i j
    · rw [if_neg hfix]
      exact ih (step x) (fun i2 j2 => le_trans (hstep x i2 j2) (hx i2 j2)) i j

theorem binarize_le_one {h w : ℕ} (g : Gray h w) : ∀ i j, binarize g i j ≤ 1 := by
  intro i j
  unfold binarize
  split_ifs <;> omega

/-- Idempotence of the whole skeletonisation stage when the thinning pass
only clears pixels. -/
theorem skeletonStage_idem (ops : Ops)
    (hstep : ∀ (h w : ℕ) (x : Gray h w) (i : Fin h) (j : Fin w), ops.thinStep x i j ≤ x i j)
    {h w : ℕ} (g : Gray h w) :
    skeletonStage ops (skeletonStage ops g) = skeletonStage ops g := by
  unfold skeletonStage
  set sk := binarize g with hsk
  set y := iterFix (fun x => ops.thinStep x) (pixSum sk + 1) sk with hy
  have hyfix : ops.thinStep y = y :=
    iterFix_fix (fun x => ops.thinStep x) (hstep h w) (pixSum sk + 1) sk (by omega)
  have hy1 : ∀ i j, y i j ≤ 1 :=
    iterFix_le_one (fun x => ops.thinStep x) (hstep h w) (pixSum sk + 1) sk (binarize_le_one g)
  have hbin : binarize (fun i j => y i j * 255) = y := by
    funext i j
    unfold binarize
    have h1 := hy1 i j
    by_cases h0 : y i j = 0
    · simp [h0]
    · have h2 : y i j = 1 := by omega
      simp [h2]
  show (fun i j => iterFix (fun x => ops.thinStep x)
      (pixSum (binarize (fun i j => y i j * 255)) + 1)
      (binarize (fun i j => y i j * 255)) i j * 255) = _
  rw [hbin]
  funext i j
  rw [iterFix_of_fix (fun x => ops.thinStep x) y hyfix]

/-! ### The elliptical dilation kernel -/

theorem ellB_lt {k a b : ℕ} (hab : ellB k a b = true) : a < k ∧ b < k := by
  by_cases hc : a < k ∧ b < k
  · exact hc
  · exfalso
    simp only [ellB] at hab
    rw [if_neg hc] at hab
    exact Bool.false_ne_true hab

/-- For kernel sizes up to 8 the elliptical structuring elements are nested:
a point of the `k1` kernel reappears in the `k2` kernel shifted by the
difference of the anchor positions.  Checked exhaustively. -/
theorem ellB_mono_fin : ∀ k1 k2 a b : Fin 9, k1 ≤ k2 →
    ellB k1 a b = true →
    ellB k2 (a + ((k2 : ℕ) / 2 - (k1 : ℕ) / 2)) (b + ((k2 : ℕ) / 2 - (k1 : ℕ) / 2)) = true := by
  decide

theorem dilateEll_mono {h w : ℕ} (g : Gray h w) (k1 k2 : ℕ)
    (hk2 : k2 ≤ 8) (h12 : k1 ≤ k2) (i : Fin h) (j : Fin w) :
    dilateEll k1 g i j ≤ dilateEll k2 g i j := by
  unfold dilateEll
  apply Finset.sup_le
  intro p _
  by_cases hp : ellB k1 p.1 p.2
  · rw [if_pos hp]
    have hk1 : k1 ≤ 8 := le_trans h12 hk2
    have hp1 : (p.1 : ℕ) < 9 := lt_of_lt_of_le p.1.isLt (by omega)
    have hp2 : (p.2 : ℕ) < 9 := lt_of_lt_of_le p.2.isLt (by omega)
    have h2 : ellB k2 (p.1 + (k2 / 2 - k1 / 2)) (p.2 + (k2 / 2 - k1 / 2)) = true := by
      have := ellB_mono_fin ⟨k1, by omega⟩ ⟨k2, by omega⟩ ⟨p.1, hp1⟩ ⟨p.2, hp2⟩
        (by simpa using h12) (by simpa using hp)
      simpa using this
    obtain ⟨hq1, hq2⟩ := ellB_lt h2
    have hdd : k1 / 2 ≤ k2 / 2 := Nat.div_le_div_right h12
    refine le_trans (le_of_eq ?_)
      (Finset.le_sup (Finset.mem_univ
        ((⟨⟨p.1 + (k2 / 2 - k1 / 2), hq1⟩, ⟨p.2 + (k2 / 2 - k1 / 2), hq2⟩⟩ : Fin k2 × Fin k2))))
    rw [if_pos h2]
    have hA : (i : ℤ) + ((p.1 : ℕ) : ℤ) - ((k1 / 2 : ℕ) : ℤ)
        = (i : ℤ) + (((p.1 : ℕ) + (k2 / 2 - k1 / 2) : ℕ) : ℤ) - ((k2 / 2 : ℕ) : ℤ) := by
      omega
    have hB : (j : ℤ) + ((p.2 : ℕ) : ℤ) - ((k1 / 2 : ℕ) : ℤ)
        = (j : ℤ) + (((p.2 : ℕ) + (k2 / 2 - k1 / 2) : ℕ) : ℤ) - ((k2 / 2 : ℕ) : ℤ) := by
      omega
    rw [hA, hB]
  · rw [if_neg hp]
    exact Nat.zero_le _

theorem countInk_mono {h w : ℕ} (f g : Gray h w)
    (hle : ∀ i j, f i j ≤ g i j) : countInk f ≤ countInk g := by
  unfold countInk
  refine Finset.sum_le_sum fun i _ => Finset.sum_le_sum fun j _ => ?_
  by_cases h0 : 0 < f i j
  · rw [if_pos h0, if_pos (lt_of_lt_of_le h0 (hle i j))]
  · rw [if_neg h0]
    split_ifs <;> omega

/-! ### The parameter clamp -/

theorem clamp_bounds (v : ℤ) : 1 ≤ clamp v 1 8 ∧ clamp v 1 8 ≤ 8 := by
  unfold clamp; omega

theorem clamp_eq_self (v : ℤ) (h1 : 1 ≤ v) (h8 : v ≤ 8) : clamp v 1 8 = v := by
  unfold clamp; omega

theorem clamp_mono (v1 v2 : ℤ) (h12 : v1 ≤ v2) : clamp v1 1 8 ≤ clamp v2 1 8 := by
  unfold clamp; omega

/-! ### Remaining helper facts for the claims -/

/-- For clamped detail 1 or 2 the shading strength is not positive. -/
theorem shadeStrength_fle_true (dc : ℤ) (h1 : 1 ≤ dc) (h2 : dc ≤ 2) :
    fle (shadeStrength dc) ⟨0, 0⟩ = true := by
  interval_cases dc <;> decide

/-- For clamped detail 3 to 8 the shading strength is positive. -/
theorem shadeStrength_fle_false (dc : ℤ) (h3 : 3 ≤ dc) (h8 : dc ≤ 8) :
    fle (shadeStrength dc) ⟨0, 0⟩ = false := by
  interval_cases dc <;> decide

/-- Every pixel the compositor writes is either the ink colour (in the BGR
order of the output buffer, line 150) or white. -/
theorem composite_pix {h w : ℕ} (ink : Gray h w) (i : Fin h) (j : Fin w) :
    composite ink i j = (PURPLE.2.2, PURPLE.2.1, PURPLE.1) ∨
    composite ink i j = (255, 255, 255) := by
  unfold composite
  split_ifs
  · exact Or.inl rfl
  · exact Or.inr rfl

/-- A concrete run of the full pipeline on the 2x2 test image at the lowest
parameters: it succeeds and renders the all-white image. -/
theorem hq_img2_eval : high_quality_stencil modelOps img2 1 1 = some white2 :=
  optionCI_eq_of_three _ _ (by decide) (by decide) (by decide)

/-! ### The claims -/

/-- Claim C1 (confirmed): the core clamps both parameters into [1, 8] before
any use and has no parameter-driven failure: `high_quality_stencil` is
exactly the pipeline body applied to the clamped parameters, so
`lineWeight = 0` behaves as `lineWeight = 1` and `detail = 99` behaves as
`detail = 8`. -/
theorem C1_parameter_clamping (ops : Ops) (img : ColorImage) (lw d : ℤ) :
    high_quality_stencil ops img lw d = hqsCore ops img (clamp lw 1 8) (clamp d 1 8) ∧
    (1 ≤ clamp lw 1 8 ∧ clamp lw 1 8 ≤ 8 ∧ 1 ≤ clamp d 1 8 ∧ clamp d 1 8 ≤ 8) ∧
    high_quality_stencil ops img 0 d = high_quality_stencil ops img 1 d ∧
    high_quality_stencil ops img lw 99 = high_quality_stencil ops img lw 8 := by
  refine ⟨rfl,
    ⟨(clamp_bounds lw).1, (clamp_bounds lw).2, (clamp_bounds d).1, (clamp_bounds d).2⟩,
    ?_, ?_⟩
  · show hqsCore ops img (clamp 0 1 8) (clamp d 1 8)
        = hqsCore ops img (clamp 1 1 8) (clamp d 1 8)
    have h01 : clamp 0 1 8 = clamp 1 1 8 := by decide
    rw [h01]
  · show hqsCore ops img (clamp lw 1 8) (clamp 99 1 8)
        = hqsCore ops img (clamp lw 1 8) (clamp 8 1 8)
    have h98 : clamp 99 1 8 = clamp 8 1 8 := by decide
    rw [h98]

/-- Claim C2 (corrected): zero-area inputs do fail, but they are not the
only failure mode.  The core returns no image exactly when the input has
zero area, or the downscale rounds a dimension to zero, or the halftone
stage is active (positive shading strength, clamped detail at least 3) and
a normalised dimension is smaller than the halftone block size. -/
theorem C2_failure_modes (ops : Ops) (img : ColorImage) (lw d : ℤ) :
    high_quality_stencil ops img lw d = none ↔
      (feq (scaleOf img.1 img.2.1) ⟨1, 0⟩ = true ∧ (img.1 = 0 ∨ img.2.1 = 0)) ∨
      (feq (scaleOf img.1 img.2.1) ⟨1, 0⟩ = false ∧
        (normH img.1 img.2.1 = 0 ∨ normW img.1 img.2.1 = 0)) ∨
      (fle (shadeStrength (clamp d 1 8)) ⟨0, 0⟩ = false ∧
        (normW img.1 img.2.1 / halftoneBlock (shadeStrength (clamp d 1 8)) = 0 ∨
         normH img.1 img.2.1 / halftoneBlock (shadeStrength (clamp d 1 8)) = 0)) := by
  unfold high_quality_stencil
  rw [hqsCore_none_iff, normalizeStage_none_iff]
  constructor
  · rintro ((h | h) | h)
    · exact Or.inl h
    · exact Or.inr (Or.inl h)
    · obtain ⟨n, hn, hshade⟩ := h
      obtain ⟨h1, h2⟩ := normalizeStage_some_dims ops img n hn
      rw [add_halftone_none_iff] at hshade
      right; right
      rw [← h1, ← h2]
      exact hshade
  · rintro (h | h | h)
    · exact Or.inl (Or.inl h)
    · exact Or.inl (Or.inr h)
    · cases hn : normalizeStage ops img with
      | none => exact Or.inl ((normalizeStage_none_iff ops img).mp hn)
      | some n =>
        right
        refine ⟨n, rfl, ?_⟩
        rw [add_halftone_none_iff]
        obtain ⟨h1, h2⟩ := normalizeStage_some_dims ops img n hn
        rw [h2, h1]
        exact h

/-- A 3x3 image with both dimensions positive on which the core fails (the
halftone block at detail 3 is 9, larger than either dimension), refuting
the zero-area-only failure claim. -/
theorem C2_failure_modes_cex :
    0 < img3.1 ∧ 0 < img3.2.1 ∧ high_quality_stencil modelOps img3 3 3 = none :=
  ⟨by decide, by decide, by decide⟩

/-- Claim C4 (corrected): the Normalizer passes images with both sides at
most 1400 through unchanged and its dimensions propagate to the output
canvas, but when downscaling happens the scaled longer side is 1399 or
1400, not always exactly 1400: `int(side * (1400 / side))` can truncate to
1399. -/
theorem C4_normalized_dimensions (ops : Ops) (img out : ColorImage) (lw d : ℤ)
    (hh : 0 < img.1) (hw : 0 < img.2.1)
    (hout : high_quality_stencil ops img lw d = some out) :
    out.1 = normH img.1 img.2.1 ∧ out.2.1 = normW img.1 img.2.1 ∧
    (max img.1 img.2.1 ≤ 1400 → out.1 = img.1 ∧ out.2.1 = img.2.1) ∧
    (1400 < max img.1 img.2.1 →
      1399 ≤ max out.1 out.2.1 ∧ max out.1 out.2.1 ≤ 1400) := by
  unfold high_quality_stencil at hout
  obtain ⟨n, hn, shade, hs, hout_eq⟩ :=
    hqsCore_some_shape ops img (clamp lw 1 8) (clamp d 1 8) out hout
  obtain ⟨h1, h2⟩ := normalizeStage_some_dims ops img n hn
  have ho1 : out.1 = normH img.1 img.2.1 := by rw [hout_eq]; exact h1
  have ho2 : out.2.1 = normW img.1 img.2.1 := by rw [hout_eq]; exact h2
  refine ⟨ho1, ho2, ?_, ?_⟩
  · intro hle
    have hfeq : feq (scaleOf img.1 img.2.1) ⟨1, 0⟩ = true := by
      unfold scaleOf
      rw [if_neg (by omega)]
      decide
    constructor
    · rw [ho1]; unfold normH; rw [if_pos hfeq]
    · rw [ho2]; unfold normW; rw [if_pos hfeq]
  · intro hgt
    obtain ⟨hH, hW, hmax⟩ := normHW_of_gt img.1 img.2.1 hgt
    rw [ho2, ho1]
    exact ⟨hmax hh hw, by omega⟩

/-- A square 2099-pixel image is downscaled to 1399 x 1399, refuting the
claim that the scaled maximum side always equals 1400. -/
theorem C4_normalized_dimensions_cex :
    1400 < max 2099 2099 ∧ max (normH 2099 2099) (normW 2099 2099) = 1399 :=
  ⟨by decide, by decide⟩

theorem C4_normalized_dimensions_witness :
    (0 < img2.1 ∧ 0 < img2.2.1 ∧ high_quality_stencil modelOps img2 1 1 = some white2) ∧
    (white2.1 = normH img2.1 img2.2.1 ∧ white2.2.1 = normW img2.1 img2.2.1 ∧
     (max img2.1 img2.2.1 ≤ 1400 → white2.1 = img2.1 ∧ white2.2.1 = img2.2.1) ∧
     (1400 < max img2.1 img2.2.1 →
       1399 ≤ max white2.1 white2.2.1 ∧ max white2.1 white2.2.1 ≤ 1400)) :=
  ⟨⟨by decide, by decide, hq_img2_eval⟩,
   C4_normalized_dimensions modelOps img2 white2 1 1 (by decide) (by decide) hq_img2_eval⟩

/-- Claim C5 (confirmed): for clamped detail at most 2 the shading strength
is not positive and the Shader returns the all-zero mask of the input's
shape. -/
theorem C5_shading_gate (ops : Ops) {h w : ℕ} (g : Gray h w) (d : ℤ)
    (hd : clamp d 1 8 ≤ 2) :
    fle (shadeStrength (clamp d 1 8)) ⟨0, 0⟩ = true ∧
    add_halftone_shading ops g (shadeStrength (clamp d 1 8)) = some (fun _ _ => 0) := by
  have hb := clamp_bounds d
  have hfle := shadeStrength_fle_true (clamp d 1 8) hb.1 hd
  refine ⟨hfle, ?_⟩
  unfold add_halftone_shading
  rw [if_pos hfle]

theorem C5_shading_gate_witness :
    clamp 1 1 8 ≤ 2 ∧
    (fle (shadeStrength (clamp 1 1 8)) ⟨0, 0⟩ = true ∧
     add_halftone_shading modelOps graySample (shadeStrength (clamp 1 1 8))
       = some (fun _ _ => 0)) :=
  ⟨by decide, C5_shading_gate modelOps graySample 1 (by decide)⟩

/-- Claim C6 (confirmed): for a fixed enhanced image and fixed detail, the
ink-pixel count of the Line Renderer's output (the skeleton dilated once by
the elliptical structuring element of the clamped line weight) is
non-decreasing in the line weight. -/
theorem C6_line_weight_monotone (ops : Ops) {h w : ℕ} (sharp : Gray h w)
    (d lw1 lw2 : ℤ) (h12 : lw1 ≤ lw2) :
    countInk (lineMaskOf ops sharp d lw1) ≤ countInk (lineMaskOf ops sharp d lw2) := by
  unfold lineMaskOf
  apply countInk_mono
  intro i j
  apply dilateEll_mono
  · have := clamp_bounds lw2
    omega
  · exact Int.toNat_le_toNat (clamp_mono lw1 lw2 h12)

theorem C6_line_weight_monotone_witness :
    (1 : ℤ) ≤ 2 ∧
    countInk (lineMaskOf modelOps graySample 3 1)
      ≤ countInk (lineMaskOf modelOps graySample 3 2) :=
  ⟨by decide, C6_line_weight_monotone modelOps graySample 3 1 2 (by decide)⟩

/-- Claim C7 (confirmed): whenever the core produces an image, every output
pixel is either the fixed ink colour (RGB (140, 90, 255), written in BGR
channel order into the buffer) or white; the pixels are the compositor
applied to the OR of a line mask and a shading mask, on the canvas of the
normalised dimensions. -/
theorem C7_compositor_palette (ops : Ops) (img : ColorImage) (lw d : ℤ)
    (out : ColorImage) (hout : high_quality_stencil ops img lw d = some out) :
    PURPLE = (140, 90, 255) ∧
    (∃ lines shade : Gray out.1 out.2.1,
        out.2.2 = composite (fun i j => Nat.lor (lines i j) (shade i j))) ∧
    ∀ (i : Fin out.1) (j : Fin out.2.1),
      out.2.2 i j = (PURPLE.2.2, PURPLE.2.1, PURPLE.1) ∨
      out.2.2 i j = (255, 255, 255) := by
  unfold high_quality_stencil at hout
  obtain ⟨n, hn, shade, hs, hout_eq⟩ :=
    hqsCore_some_shape ops img (clamp lw 1 8) (clamp d 1 8) out hout
  subst hout_eq
  refine ⟨rfl,
    ⟨lineMaskOf ops (enhance ops (ops.cvtGray n.2.2)) (clamp d 1 8) (clamp lw 1 8),
     shade, rfl⟩, ?_⟩
  intro i j
  exact composite_pix (fun i j =>
    Nat.lor (lineMaskOf ops (enhance ops (ops.cvtGray n.2.2)) (clamp d 1 8) (clamp lw 1 8) i j)
      (shade i j)) i j

theorem C7_compositor_palette_witness :
    high_quality_stencil modelOps img2 1 1 = some white2 ∧
    (PURPLE = (140, 90, 255) ∧
     (∃ lines shade : Gray white2.1 white2.2.1,
        white2.2.2 = composite (fun i j => Nat.lor (lines i j) (shade i j))) ∧
     ∀ (i : Fin white2.1) (j : Fin white2.2.1),
       white2.2.2 i j = (PURPLE.2.2, PURPLE.2.1, PURPLE.1) ∨
       white2.2.2 i j = (255, 255, 255)) :=
  ⟨hq_img2_eval, C7_compositor_palette modelOps img2 1 1 white2 hq_img2_eval⟩

/-- Claim C8 (confirmed against the spec-modelled thinning pass): the
Skeletonizer stage is idempotent.  The single thinning pass of
`skimage.morphology.skeletonize` is outside the repository and is the
`Ops.thinStep` parameter; the hypothesis is the defining property of a
thinning pass, that it only ever clears pixels.  Under it, the stage
(binarise, thin to a fixed point, scale back to 0/255) reproduces its own
output exactly. -/
theorem C8_skeleton_idempotent (ops : Ops)
    (hstep : ∀ (h w : ℕ) (x : Gray h w) (i : Fin h) (j : Fin w),
      ops.thinStep x i j ≤ x i j)
    {h w : ℕ} (g : Gray h w) :
    skeletonStage ops (skeletonStage ops g) = skeletonStage ops g :=
  skeletonStage_idem ops hstep g

theorem C8_skeleton_idempotent_witness :
    (∀ (h w : ℕ) (x : Gray h w) (i : Fin h) (j : Fin w),
      modelOps.thinStep x i j ≤ x i j) ∧
    skeletonStage modelOps (skeletonStage modelOps graySample)
      = skeletonStage modelOps graySample :=
  ⟨fun _ _ _ _ _ => le_rfl,
   C8_skeleton_idempotent modelOps (fun _ _ _ _ _ => le_rfl) graySample⟩

/-- Claim C9 (confirmed): for clamped detail in [1, 8] the Line Extractor
uses Canny thresholds 40 + (8 - detail) * 6 and 120 + (8 - detail) * 8, an
adaptive-threshold neighbourhood clamp(31 - 2 * detail, 15, 31) which is
already odd on this range (the even bump never fires), offset 2, and ORs
the edges with the inverted adaptive result. -/
theorem C9_extractor_parameters (ops : Ops) {h w : ℕ} (sharp : Gray h w) (d : ℤ)
    (h1 : 1 ≤ d) (h8 : d ≤ 8) :
    cannyT1 d = 40 + (8 - d) * 6 ∧
    cannyT2 d = 120 + (8 - d) * 8 ∧
    blockOf d = clamp (31 - d * 2) 15 31 ∧
    blockOf d % 2 = 1 ∧
    lineCandidate ops d sharp = fun i j =>
      Nat.lor (ops.canny sharp (cannyT1 d) (cannyT2 d) i j)
        (255 - ops.adaptiveThresholdGaussian sharp 255 (blockOf d).toNat 2 i j) := by
  have hb : clamp (31 - d * 2) 15 31 = 31 - d * 2 := by unfold clamp; omega
  refine ⟨rfl, rfl, ?_, ?_, rfl⟩
  · show (if clamp (31 - d * 2) 15 31 % 2 = 0 then clamp (31 - d * 2) 15 31 + 1
        else clamp (31 - d * 2) 15 31) = clamp (31 - d * 2) 15 31
    rw [hb, if_neg (by omega)]
  · show (if clamp (31 - d * 2) 15 31 % 2 = 0 then clamp (31 - d * 2) 15 31 + 1
        else clamp (31 - d * 2) 15 31) % 2 = 1
    rw [hb, if_neg (by omega)]
    omega

theorem C9_extractor_parameters_witness :
    ((1 : ℤ) ≤ 4 ∧ (4 : ℤ) ≤ 8) ∧
    (cannyT1 4 = 40 + (8 - 4) * 6 ∧
     cannyT2 4 = 120 + (8 - 4) * 8 ∧
     blockOf 4 = clamp (31 - 4 * 2) 15 31 ∧
     blockOf 4 % 2 = 1 ∧
     lineCandidate modelOps 4 graySample = fun i j =>
       Nat.lor (modelOps.canny graySample (cannyT1 4) (cannyT2 4) i j)
         (255 - modelOps.adaptiveThresholdGaussian graySample 255 (blockOf 4).toNat 2 i j)) :=
  ⟨⟨by decide, by decide⟩,
   C9_extractor_parameters modelOps graySample 4 (by decide) (by decide)⟩

/-- Claim C10 (confirmed): a positive-area image whose normalised width or
height is below the halftone block size fails once shading is active
(clamped detail at least 3): the downsample target of the halftone resize
is empty and the core returns no image. -/
theorem C10_small_image_halftone_failure (ops : Ops) (img : ColorImage) (lw d : ℤ)
    (hh : 0 < img.1) (hw : 0 < img.2.1)
    (hd : 3 ≤ clamp d 1 8)
    (hsmall : normW img.1 img.2.1 / halftoneBlock (shadeStrength (clamp d 1 8)) = 0 ∨
              normH img.1 img.2.1 / halftoneBlock (shadeStrength (clamp d 1 8)) = 0) :
    high_quality_stencil ops img lw d = none := by
  have hb := clamp_bounds d
  have hfle := shadeStrength_fle_false (clamp d 1 8) hd hb.2
  unfold high_quality_stencil
  rw [hqsCore_none_iff]
  cases hn : normalizeStage ops img with
  | none => exact Or.inl rfl
  | some n =>
    right
    refine ⟨n, rfl, ?_⟩
    rw [add_halftone_none_iff]
    obtain ⟨h1, h2⟩ := normalizeStage_some_dims ops img n hn
    rw [h2, h1]
    exact ⟨hfle, hsmall⟩

set_option maxRecDepth 4000 in
theorem C10_small_image_halftone_failure_witness :
    (0 < img3.1 ∧ 0 < img3.2.1 ∧ 3 ≤ clamp 3 1 8 ∧
      (normW img3.1 img3.2.1 / halftoneBlock (shadeStrength (clamp 3 1 8)) = 0 ∨
       normH img3.1 img3.2.1 / halftoneBlock (shadeStrength (clamp 3 1 8)) = 0)) ∧
    high_quality_stencil modelOps img3 3 3 = none :=
  ⟨⟨by decide, by decide, by decide, by decide⟩,
   C10_small_image_halftone_failure modelOps img3 3 3 (by decide) (by decide)
     (by decide) (by decide)⟩

end StencilSnap
